import Mathlib

/-!
Verification development for the EtheriusVerse world-simulation engine.

The embedding follows the two core source files:
* `src/utils/isometric.ts` (`IsometricUtils`): coordinate transforms and the
  A* path search `findPath`;
* `src/services/EtheriusWorldService.ts` (`EtheriusWorldService`): zones,
  objects, agents, tile occupancy, movement commands, event handling and the
  per-frame `update`.

Numbers. The source computes with JavaScript numbers; we idealise them as
exact rationals / reals.  Two executable representations are used:

* `F3 a b m` represents the real number `a + b*sqrt 2 + sqrt m`: every cost
  that the A* search manipulates has this shape, because each step of the
  8-connected neighborhood costs `1` or `sqrt 2` and the heuristic is
  `sqrt (dx^2 + dy^2)`.  The comparator `F3.ltb` is proved to agree with the
  real-number order (`F3.ltb_iff_val`), so the executable search performs exactly
  the comparisons the source performs.
* `Q n d` represents the rational `n / (d+1)` (denominators are stored
  off by one so that a `Q` is never ill-formed); agent positions, timers and
  screen coordinates live here.  The operations are related to `ℚ` by the
  `Q.toRat_*` lemmas.

JavaScript quirks are modelled explicitly where the control flow depends on
them: the `x || Infinity` / `x || 0` idioms treat a stored score of `0` as
missing (`jsOrInf`), and writes to `tileOccupancy` at fractional or
out-of-range indices either throw (fractional/out-of-range outer index) or
silently create a junk property that integer-indexed reads never see
(fractional inner index); see `OccWrite`.
-/

set_option maxRecDepth 1000000
set_option maxHeartbeats 2000000

namespace Etherius

/-- An integer grid point (a cell of the navigation grid, or an A* node).
In the source a node is the string key `"x,y"`; the keys are in bijection
with the integer pairs, so we use the pair itself. -/
structure Pt where
  x : ℤ
  y : ℤ
deriving DecidableEq, Repr

/-! ## Exact comparison of `p + q*sqrt 2` numbers -/

/-- Decide `0 < p + q * sqrt 2` by integer arithmetic. -/
def z2pos (p q : ℤ) : Bool :=
  if 0 ≤ q then
    if 0 ≤ p then decide (0 < p ∨ 0 < q)
    else decide (p ^ 2 < 2 * q ^ 2)
  else
    if 0 < p then decide (2 * q ^ 2 < p ^ 2) else false

theorem z2pos_iff (p q : ℤ) :
    z2pos p q = true ↔ (0 : ℝ) < (p : ℝ) + (q : ℝ) * Real.sqrt 2 := by
  have hs2 : Real.sqrt 2 ^ 2 = 2 := Real.sq_sqrt (by norm_num)
  have hs : (0 : ℝ) < Real.sqrt 2 := Real.sqrt_pos.mpr (by norm_num)
  unfold z2pos
  split_ifs with hq hp hp
  · -- 0 ≤ q, 0 ≤ p
    simp only [decide_eq_true_eq]
    constructor
    · rintro (h | h)
      · have h' : (0 : ℝ) < (p : ℝ) := by exact_mod_cast h
        have : (0 : ℝ) ≤ (q : ℝ) * Real.sqrt 2 :=
          mul_nonneg (by exact_mod_cast hq) hs.le
        linarith
      · have h' : (0 : ℝ) < (q : ℝ) := by exact_mod_cast h
        have : (0 : ℝ) < (q : ℝ) * Real.sqrt 2 := mul_pos h' hs
        have h0 : (0 : ℝ) ≤ (p : ℝ) := by exact_mod_cast hp
        linarith
    · intro h
      by_contra hc
      push_neg at hc
      have h1 : p = 0 := le_antisymm hc.1 hp
      have h2 : q = 0 := le_antisymm hc.2 hq
      rw [h1, h2] at h
      norm_num at h
  · -- 0 ≤ q, p < 0
    push_neg at hp
    simp only [decide_eq_true_eq]
    have hqs : (0 : ℝ) ≤ (q : ℝ) * Real.sqrt 2 :=
      mul_nonneg (by exact_mod_cast hq) hs.le
    have hsq : ((q : ℝ) * Real.sqrt 2) ^ 2 = 2 * (q : ℝ) ^ 2 := by
      rw [mul_pow, hs2]; ring
    constructor
    · intro h
      have h' : (p : ℝ) ^ 2 < 2 * (q : ℝ) ^ 2 := by exact_mod_cast h
      by_contra hc
      push_neg at hc
      have h1 : (q : ℝ) * Real.sqrt 2 ≤ -(p : ℝ) := by linarith
      have h2 : ((q : ℝ) * Real.sqrt 2) ^ 2 ≤ (-(p : ℝ)) ^ 2 :=
        pow_le_pow_left₀ hqs h1 2
      rw [hsq] at h2
      nlinarith
    · intro h
      have hp' : (0 : ℝ) < -(p : ℝ) := by
        have : (p : ℝ) < 0 := by exact_mod_cast hp
        linarith
      have h1 : -(p : ℝ) < (q : ℝ) * Real.sqrt 2 := by linarith
      have h2 : (-(p : ℝ)) ^ 2 < ((q : ℝ) * Real.sqrt 2) ^ 2 :=
        pow_lt_pow_left₀ h1 hp'.le (by norm_num)
      rw [hsq] at h2
      have : (p : ℝ) ^ 2 < 2 * (q : ℝ) ^ 2 := by nlinarith
      exact_mod_cast this
  · -- q < 0, 0 < p
    push_neg at hq
    simp only [decide_eq_true_eq]
    have hq' : (0 : ℝ) < -(q : ℝ) := by
      have : (q : ℝ) < 0 := by exact_mod_cast hq
      linarith
    have hqs : (0 : ℝ) ≤ -(q : ℝ) * Real.sqrt 2 := mul_nonneg hq'.le hs.le
    have hsq : (-(q : ℝ) * Real.sqrt 2) ^ 2 = 2 * (q : ℝ) ^ 2 := by
      rw [mul_pow, hs2]; ring
    constructor
    · intro h
      have h' : 2 * (q : ℝ) ^ 2 < (p : ℝ) ^ 2 := by exact_mod_cast h
      have hp' : (0 : ℝ) < (p : ℝ) := by exact_mod_cast hp
      have h2 : -(q : ℝ) * Real.sqrt 2 < (p : ℝ) := by
        by_contra hc
        push_neg at hc
        have := pow_le_pow_left₀ hp'.le hc 2
        rw [hsq] at this
        nlinarith
      linarith
    · intro h
      have hp' : (0 : ℝ) < (p : ℝ) := by
        nlinarith [mul_pos hq' hs]
      have h1 : -(q : ℝ) * Real.sqrt 2 < (p : ℝ) := by linarith
      have h2 : (-(q : ℝ) * Real.sqrt 2) ^ 2 < (p : ℝ) ^ 2 :=
        pow_lt_pow_left₀ h1 hqs (by norm_num)
      rw [hsq] at h2
      exact_mod_cast h2
  · -- q < 0, p ≤ 0
    push_neg at hq hp
    simp only [false_iff, not_lt]
    have h1 : (q : ℝ) * Real.sqrt 2 < 0 :=
      mul_neg_of_neg_of_pos (by exact_mod_cast hq) hs
    have h2 : (p : ℝ) ≤ 0 := by exact_mod_cast hp
    linarith

/-- Decide `p + q * sqrt 2 < r + s * sqrt 2`. -/
def z2lt (p q r s : ℤ) : Bool := z2pos (r - p) (s - q)

theorem z2lt_iff (p q r s : ℤ) :
    z2lt p q r s = true ↔
      (p : ℝ) + (q : ℝ) * Real.sqrt 2 < (r : ℝ) + (s : ℝ) * Real.sqrt 2 := by
  rw [z2lt, z2pos_iff]
  constructor <;> intro h
  · have := h
    push_cast at this ⊢
    nlinarith
  · push_cast
    nlinarith

/-- Decide `0 ≤ p + q * sqrt 2`. -/
def z2nonneg (p q : ℤ) : Bool := !z2pos (-p) (-q)

theorem z2nonneg_iff (p q : ℤ) :
    z2nonneg p q = true ↔ (0 : ℝ) ≤ (p : ℝ) + (q : ℝ) * Real.sqrt 2 := by
  rw [z2nonneg, Bool.not_eq_true', ← Bool.not_eq_true, z2pos_iff]
  push_cast
  constructor <;> intro h <;> [skip; intro hc] <;> nlinarith [h]

/-! ## Exact comparison of `p + q*sqrt 2 + sqrt n` numbers -/

/-- Comparing nonnegative reals is comparing their squares. -/
theorem lt_iff_pow_lt (a b : ℝ) (ha : 0 ≤ a) (hb : 0 ≤ b) : a < b ↔ a ^ 2 < b ^ 2 := by
  constructor
  · intro h
    exact pow_lt_pow_left₀ h ha two_ne_zero
  · intro h
    by_contra hc
    push_neg at hc
    exact absurd (pow_le_pow_left₀ hb hc 2) (not_le.mpr h)

/-- Decide `0 < p + q * sqrt 2 + sqrt n`. -/
def lpos (p q : ℤ) (n : ℕ) : Bool :=
  if z2nonneg p q then z2pos p q || decide (0 < n)
  else z2lt (p ^ 2 + 2 * q ^ 2) (2 * p * q) n 0

theorem lpos_iff (p q : ℤ) (n : ℕ) :
    lpos p q n = true ↔
      (0 : ℝ) < (p : ℝ) + (q : ℝ) * Real.sqrt 2 + Real.sqrt n := by
  have hs : (0 : ℝ) ≤ Real.sqrt n := Real.sqrt_nonneg _
  have hs2 : Real.sqrt n ^ 2 = (n : ℝ) := Real.sq_sqrt (Nat.cast_nonneg n)
  have hS2 : Real.sqrt 2 ^ 2 = 2 := Real.sq_sqrt (by norm_num)
  have hsq : ((p : ℝ) + q * Real.sqrt 2) ^ 2 =
      ((p ^ 2 + 2 * q ^ 2 : ℤ) : ℝ) + ((2 * p * q : ℤ) : ℝ) * Real.sqrt 2 := by
    push_cast
    linear_combination (q : ℝ) ^ 2 * hS2
  unfold lpos
  split_ifs with hA
  · have hA' := (z2nonneg_iff p q).mp hA
    rw [Bool.or_eq_true, z2pos_iff, decide_eq_true_eq]
    constructor
    · rintro (h | h)
      · linarith
      · have : (0 : ℝ) < Real.sqrt n := Real.sqrt_pos.mpr (by exact_mod_cast h)
        linarith
    · intro h
      by_contra hc
      push_neg at hc
      have h1 : (p : ℝ) + (q : ℝ) * Real.sqrt 2 = 0 := le_antisymm hc.1 hA'
      have h2 : n = 0 := Nat.le_zero.mp hc.2
      rw [h1, h2] at h
      simp at h
  · have hA' : (p : ℝ) + (q : ℝ) * Real.sqrt 2 < 0 := by
      by_contra hc
      push_neg at hc
      exact hA ((z2nonneg_iff p q).mpr hc)
    rw [z2lt_iff, ← hsq]
    have hiff := lt_iff_pow_lt (-((p : ℝ) + (q : ℝ) * Real.sqrt 2)) (Real.sqrt n)
      (by linarith) hs
    rw [neg_sq, hs2] at hiff
    push_cast
    rw [zero_mul, add_zero, ← hiff]
    constructor <;> intro h <;> linarith

/-- Decide `0 < u + v * sqrt 2 + (w + t * sqrt 2) * sqrt n`. -/
def epos (u v w t : ℤ) (n : ℕ) : Bool :=
  if n = 0 then z2pos u v
  else
    if z2nonneg w t then
      if z2nonneg u v then z2pos u v || z2pos w t
      else z2lt (u ^ 2 + 2 * v ^ 2) (2 * u * v) ((w ^ 2 + 2 * t ^ 2) * n) (2 * w * t * n)
    else
      if z2nonneg u v then
        z2lt ((w ^ 2 + 2 * t ^ 2) * n) (2 * w * t * n) (u ^ 2 + 2 * v ^ 2) (2 * u * v)
      else false

theorem epos_iff (u v w t : ℤ) (n : ℕ) :
    epos u v w t n = true ↔
      (0 : ℝ) < (u : ℝ) + (v : ℝ) * Real.sqrt 2 +
        ((w : ℝ) + (t : ℝ) * Real.sqrt 2) * Real.sqrt n := by
  have hs : (0 : ℝ) ≤ Real.sqrt n := Real.sqrt_nonneg _
  have hs2 : Real.sqrt n ^ 2 = (n : ℝ) := Real.sq_sqrt (Nat.cast_nonneg n)
  have hS2 : Real.sqrt 2 ^ 2 = 2 := Real.sq_sqrt (by norm_num)
  set R : ℝ := (u : ℝ) + (v : ℝ) * Real.sqrt 2 with hR
  set S : ℝ := (w : ℝ) + (t : ℝ) * Real.sqrt 2 with hS
  have hRsq : R ^ 2 = ((u ^ 2 + 2 * v ^ 2 : ℤ) : ℝ) + ((2 * u * v : ℤ) : ℝ) * Real.sqrt 2 := by
    rw [hR]; push_cast; linear_combination (v : ℝ) ^ 2 * hS2
  have hSsq : (S * Real.sqrt n) ^ 2 =
      (((w ^ 2 + 2 * t ^ 2) * n : ℤ) : ℝ) + ((2 * w * t * n : ℤ) : ℝ) * Real.sqrt 2 := by
    rw [hS]; push_cast
    linear_combination ((t : ℝ) ^ 2 * (n : ℝ)) * hS2 +
      (((w : ℝ) + (t : ℝ) * Real.sqrt 2) ^ 2) * hs2
  unfold epos
  split_ifs with hn hSn hRn hRn
  · subst hn
    rw [z2pos_iff]
    simp [Real.sqrt_zero, hR]
  · -- S ≥ 0, R ≥ 0
    have hS' : (0 : ℝ) ≤ S := (z2nonneg_iff w t).mp hSn
    have hR' : (0 : ℝ) ≤ R := (z2nonneg_iff u v).mp hRn
    have hn' : (0 : ℝ) < Real.sqrt n :=
      Real.sqrt_pos.mpr (by exact_mod_cast Nat.pos_of_ne_zero hn)
    rw [Bool.or_eq_true, z2pos_iff, z2pos_iff, ← hR, ← hS]
    constructor
    · rintro (h | h)
      · nlinarith
      · nlinarith
    · intro h
      by_contra hc
      push_neg at hc
      have h1 : R = 0 := le_antisymm hc.1 hR'
      have h2 : S = 0 := le_antisymm hc.2 hS'
      rw [h1, h2] at h
      simp at h
  · -- S ≥ 0, R < 0
    have hS' : (0 : ℝ) ≤ S := (z2nonneg_iff w t).mp hSn
    have hR' : R < 0 := by
      by_contra hc
      push_neg at hc
      exact hRn ((z2nonneg_iff u v).mpr hc)
    have hSs : (0 : ℝ) ≤ S * Real.sqrt n := mul_nonneg hS' hs
    rw [z2lt_iff, ← hRsq, ← hSsq]
    have hiff := lt_iff_pow_lt (-R) (S * Real.sqrt n) (by linarith) hSs
    rw [neg_sq] at hiff
    rw [← hiff]
    constructor <;> intro h <;> linarith
  · -- S < 0, R ≥ 0
    have hR' : (0 : ℝ) ≤ R := (z2nonneg_iff u v).mp hRn
    have hS' : S < 0 := by
      by_contra hc
      push_neg at hc
      exact hSn ((z2nonneg_iff w t).mpr hc)
    have hSs : (0 : ℝ) ≤ -(S * Real.sqrt n) := by
      have : S * Real.sqrt n ≤ 0 := mul_nonpos_of_nonpos_of_nonneg hS'.le hs
      linarith
    rw [z2lt_iff, ← hRsq, ← hSsq]
    have hiff := lt_iff_pow_lt (-(S * Real.sqrt n)) R hSs hR'
    rw [neg_sq] at hiff
    rw [← hiff]
    constructor <;> intro h <;> linarith
  · -- S < 0, R < 0
    have hR' : R < 0 := by
      by_contra hc
      push_neg at hc
      exact hRn ((z2nonneg_iff u v).mpr hc)
    have hS' : S < 0 := by
      by_contra hc
      push_neg at hc
      exact hSn ((z2nonneg_iff w t).mpr hc)
    have : S * Real.sqrt n ≤ 0 := mul_nonpos_of_nonpos_of_nonneg hS'.le hs
    simp only [false_iff, not_lt]
    linarith

/-- Decide `sqrt m < p + q * sqrt 2 + sqrt n`. -/
def sqrtlt (m : ℕ) (p q : ℤ) (n : ℕ) : Bool :=
  lpos p q n && epos (p ^ 2 + 2 * q ^ 2 + n - m) (2 * p * q) (2 * p) (2 * q) n

theorem sqrtlt_iff (m : ℕ) (p q : ℤ) (n : ℕ) :
    sqrtlt m p q n = true ↔
      Real.sqrt m < (p : ℝ) + (q : ℝ) * Real.sqrt 2 + Real.sqrt n := by
  have hm : (0 : ℝ) ≤ Real.sqrt m := Real.sqrt_nonneg _
  have hm2 : Real.sqrt m ^ 2 = (m : ℝ) := Real.sq_sqrt (Nat.cast_nonneg m)
  have hs2 : Real.sqrt n ^ 2 = (n : ℝ) := Real.sq_sqrt (Nat.cast_nonneg n)
  have hS2 : Real.sqrt 2 ^ 2 = 2 := Real.sq_sqrt (by norm_num)
  set L : ℝ := (p : ℝ) + (q : ℝ) * Real.sqrt 2 + Real.sqrt n with hL
  have hLsq : L ^ 2 - (m : ℝ) =
      ((p ^ 2 + 2 * q ^ 2 + n - m : ℤ) : ℝ) + ((2 * p * q : ℤ) : ℝ) * Real.sqrt 2 +
        (((2 * p : ℤ) : ℝ) + ((2 * q : ℤ) : ℝ) * Real.sqrt 2) * Real.sqrt n := by
    rw [hL]; push_cast
    linear_combination (q : ℝ) ^ 2 * hS2 + hs2
  rw [sqrtlt, Bool.and_eq_true, lpos_iff, epos_iff, ← hL, ← hLsq]
  constructor
  · rintro ⟨hLpos, hsq⟩
    have hiff := lt_iff_pow_lt (Real.sqrt m) L hm hLpos.le
    rw [hm2] at hiff
    exact hiff.mpr (by linarith)
  · intro h
    have hLpos : (0 : ℝ) < L := lt_of_le_of_lt hm h
    refine ⟨hLpos, ?_⟩
    have hiff := lt_iff_pow_lt (Real.sqrt m) L hm hLpos.le
    rw [hm2] at hiff
    linarith [hiff.mp h]

/-! ## The cost representation used by the executable A* -/

/-- `F3 a b m` represents the nonnegative real `a + b * sqrt 2 + sqrt m`.
g-scores of the search are sums of step costs `1` and `sqrt 2`, hence of the
form `a + b * sqrt 2` (`m = 0`); f-scores add the heuristic
`sqrt (dx^2 + dy^2)`. -/
structure F3 where
  a : ℕ
  b : ℕ
  m : ℕ
deriving DecidableEq, Repr

noncomputable def F3.val (x : F3) : ℝ :=
  (x.a : ℝ) + (x.b : ℝ) * Real.sqrt 2 + Real.sqrt x.m

/-- Executable strict comparison of cost values, used for every numeric
comparison the source's `findPath` performs. -/
def F3.ltb (x y : F3) : Bool :=
  sqrtlt x.m ((y.a : ℤ) - (x.a : ℤ)) ((y.b : ℤ) - (x.b : ℤ)) y.m

theorem F3.ltb_iff_val (x y : F3) : F3.ltb x y = true ↔ x.val < y.val := by
  rw [F3.ltb, sqrtlt_iff, F3.val, F3.val]
  push_cast
  constructor <;> intro h <;> linarith

/-! ## The A* path search (`IsometricUtils.findPath`)

`findPath` works on string keys `"x,y"`, a `Set` for the open set (iteration
in insertion order) and `Map`s for `cameFrom` / `gScore` / `fScore`.  We model
keys by `Pt`, the open set by a duplicate-free list in insertion order and the
maps by association lists.  Scores are `F3` values (for g-scores the radicand
component is `0`).  `fuel`/`rfuel` bound the two source loops (`while
(openSet.size > 0)` and the path-reconstruction `while (curr)`), which have no
bound in the source; `PathResult.fuelOut` reports that a loop was still
running when the fuel ran out. -/

/-- Squared Euclidean distance between two grid points: the radicand of the
source's `gridDistance` (which returns `Math.sqrt` of it). -/
def sqDist (p q : Pt) : ℕ := ((q.x - p.x) ^ 2 + (q.y - p.y) ^ 2).toNat

/-- The source's `gridDistance` idealised over ℝ. -/
noncomputable def gridDistance (p q : Pt) : ℝ :=
  Real.sqrt ((((q.x - p.x) ^ 2 + (q.y - p.y) ^ 2 : ℤ) : ℝ))

theorem sqDist_cast (p q : Pt) :
    ((sqDist p q : ℤ)) = (q.x - p.x) ^ 2 + (q.y - p.y) ^ 2 := by
  rw [sqDist, Int.toNat_of_nonneg (by positivity)]

theorem gridDistance_eq_sqrt_sqDist (p q : Pt) :
    gridDistance p q = Real.sqrt (sqDist p q) := by
  rw [gridDistance]
  congr 1
  exact_mod_cast (sqDist_cast p q).symm

/-- The 8-connected neighborhood, in the source's order
(L, R, U, D, UL, UR, DL, DR). -/
def getNeighbors (gridX gridY : ℤ) : List Pt :=
  [⟨gridX - 1, gridY⟩, ⟨gridX + 1, gridY⟩,
   ⟨gridX, gridY - 1⟩, ⟨gridX, gridY + 1⟩,
   ⟨gridX - 1, gridY - 1⟩, ⟨gridX + 1, gridY - 1⟩,
   ⟨gridX - 1, gridY + 1⟩, ⟨gridX + 1, gridY + 1⟩]

theorem sqDist_of_neighbor {x y : ℤ} {n : Pt} (h : n ∈ getNeighbors x y) :
    sqDist ⟨x, y⟩ n = 1 ∨ sqDist ⟨x, y⟩ n = 2 := by
  have hc : ((sqDist ⟨x, y⟩ n : ℤ)) = (n.x - x) ^ 2 + (n.y - y) ^ 2 := sqDist_cast _ _
  fin_cases h <;> simp_all <;> omega

/-- Adding one step cost to a g-score: the step between 8-neighbors costs
`1` (orthogonal, squared distance 1) or `sqrt 2` (diagonal, squared
distance 2). -/
def stepCost (sq : ℕ) (g : ℕ × ℕ) : ℕ × ℕ :=
  if sq = 1 then (g.1 + 1, g.2) else (g.1, g.2 + 1)

theorem stepCost_val (g : ℕ × ℕ) (p q : Pt) (h : sqDist p q = 1 ∨ sqDist p q = 2) :
    (F3.mk (stepCost (sqDist p q) g).1 (stepCost (sqDist p q) g).2 0).val =
      (F3.mk g.1 g.2 0).val + gridDistance p q := by
  rw [gridDistance_eq_sqrt_sqDist]
  rcases h with h | h <;> rw [h] <;> simp [stepCost, F3.val] <;> push_cast <;> ring

/-- Building an f-score entry `g + gridDistance n goal` from a g-score. -/
theorem fBuild_val (g : ℕ × ℕ) (n goal : Pt) :
    (F3.mk g.1 g.2 (sqDist n goal)).val = (F3.mk g.1 g.2 0).val + gridDistance n goal := by
  rw [gridDistance_eq_sqrt_sqDist]
  simp [F3.val]

/-- Strict comparison of g-scores (`a + b * sqrt 2` values). -/
def g2ltb (x y : ℕ × ℕ) : Bool := F3.ltb ⟨x.1, x.2, 0⟩ ⟨y.1, y.2, 0⟩

/-- Association-list get (JS `Map.get`). -/
def mget {α : Type} (k : Pt) : List (Pt × α) → Option α
  | [] => none
  | (k', v) :: rest => if k' = k then some v else mget k rest

/-- Association-list set (JS `Map.set`). -/
def mset {α : Type} (k : Pt) (v : α) : List (Pt × α) → List (Pt × α)
  | [] => [(k, v)]
  | (k', v') :: rest => if k' = k then (k', v) :: rest else (k', v') :: mset k v rest

/-- JS `Set.add`: appends, unless already present (insertion order kept). -/
def osAdd (l : List Pt) (p : Pt) : List Pt := if p ∈ l then l else l ++ [p]

/-- JS `Set.delete`. -/
def osErase : List Pt → Pt → List Pt
  | [], _ => []
  | q :: rest, p => if q = p then rest else q :: osErase rest p

/-- The JS idiom `gScore.get(k) || Infinity`: a missing entry and a stored
`0` (falsy!) both act as `Infinity` (`none`).  The only node whose g-score is
`0` is the start node, so the start behaves as unvisited whenever it is
re-examined — the source of the non-termination bug exercised by C3. -/
def jsOrInfG (o : Option (ℕ × ℕ)) : Option (ℕ × ℕ) :=
  match o with
  | some g => if g = (0, 0) then none else some g
  | none => none

/-- The same falsy collapse for f-scores (`fScore.get(node) || Infinity`). -/
def jsOrInfF (o : Option F3) : Option F3 :=
  match o with
  | some f => if f = ⟨0, 0, 0⟩ then none else some f
  | none => none

/-- The open-set scan for the node of lowest f-score, in insertion order with
strict improvement (`f < lowestF`), starting from `lowestF = Infinity`,
`current = ''`. -/
def scanMin (fs : List (Pt × F3)) : List Pt → Option F3 → Option Pt → Option Pt
  | [], _, cur => cur
  | n :: rest, lowest, cur =>
    match jsOrInfF (mget n fs) with
    | none => scanMin fs rest lowest cur
    | some f =>
      match lowest with
      | none => scanMin fs rest (some f) (some n)
      | some l =>
        if F3.ltb f l then scanMin fs rest (some f) (some n)
        else scanMin fs rest lowest cur

/-- The mutable search state of `findPath`. -/
structure AState where
  openSet : List Pt
  cameFrom : List (Pt × Pt)
  gScore : List (Pt × (ℕ × ℕ))
  fScore : List (Pt × F3)
deriving Repr

/-- Relaxation of a single (already walkability-filtered) neighbor. -/
def relax (goal cur : Pt) (gcur : ℕ × ℕ) (s : AState) (n : Pt) : AState :=
  let tg := stepCost (sqDist cur n) gcur
  let improve :=
    match jsOrInfG (mget n s.gScore) with
    | none => true
    | some go => g2ltb tg go
  if improve then
    { openSet := osAdd s.openSet n
      cameFrom := mset n cur s.cameFrom
      gScore := mset n tg s.gScore
      fScore := mset n ⟨tg.1, tg.2, sqDist n goal⟩ s.fScore }
  else s

/-- Expanding the current node over its 8 neighbors, in source order.
`gScore.get(current) || 0` is `getD (0,0)`: a stored `0` and a missing entry
coincide here, so the collapse is value-exact. -/
def expand (walk : ℤ → ℤ → Bool) (goal cur : Pt) (s : AState) : AState :=
  let gcur := (mget cur s.gScore).getD (0, 0)
  (getNeighbors cur.x cur.y).foldl
    (fun st n => if walk n.x n.y then relax goal cur gcur st n else st) s

/-- Result of one iteration of the `while (openSet.size > 0)` body. -/
inductive StepRes
  | cont (s : AState)
  | retNull
  | goalFound (came : List (Pt × Pt)) (cur : Pt)

/-- One iteration: scan for the lowest-f node (`!current` breaks), goal test,
delete, expand, then the `maxDistance` cut-off (strictly greater breaks). -/
def astarStep (walk : ℤ → ℤ → Bool) (goal : Pt) (maxDist : ℕ) (s : AState) : StepRes :=
  match scanMin s.fScore s.openSet none none with
  | none => .retNull
  | some cur =>
    if cur = goal then .goalFound s.cameFrom cur
    else
      let s2 := expand walk goal cur { s with openSet := osErase s.openSet cur }
      let gcur := (mget cur s2.gScore).getD (0, 0)
      if F3.ltb ⟨maxDist, 0, 0⟩ ⟨gcur.1, gcur.2, 0⟩ then .retNull
      else .cont s2

/-- Path reconstruction: `while (curr) { path.unshift(curr); curr =
cameFrom.get(curr) || ''; if (curr === '') break; }`. -/
def reconstruct (came : List (Pt × Pt)) : ℕ → Pt → List Pt → Option (List Pt)
  | 0, _, _ => none
  | fuel + 1, cur, acc =>
    match mget cur came with
    | none => some (cur :: acc)
    | some p => reconstruct came fuel p (cur :: acc)

/-- Outcome of `findPath`: a path, JS `null`, or fuel exhaustion (the source
loop was still running). -/
inductive PathResult
  | path (p : List Pt)
  | null
  | fuelOut
deriving DecidableEq, Repr

def astarLoop (walk : ℤ → ℤ → Bool) (goal : Pt) (maxDist rfuel : ℕ) :
    ℕ → AState → PathResult
  | 0, _ => .fuelOut
  | n + 1, s =>
    if s.openSet.isEmpty then .null
    else
      match astarStep walk goal maxDist s with
      | .retNull => .null
      | .goalFound came cur =>
        match reconstruct came rfuel cur [] with
        | some p => .path p
        | none => .fuelOut
      | .cont s' => astarLoop walk goal maxDist rfuel n s'

/-- Initial state: `openSet = {start}`, `gScore(start) = 0`,
`fScore(start) = gridDistance(start, end)`. -/
def initState (start goal : Pt) : AState :=
  { openSet := [start]
    cameFrom := []
    gScore := [(start, (0, 0))]
    fScore := [(start, ⟨0, 0, sqDist start goal⟩)] }

/-- `IsometricUtils.findPath(start, end, isWalkable, maxDistance)`. -/
def findPath (walk : ℤ → ℤ → Bool) (start goal : Pt) (maxDist : ℕ)
    (fuel rfuel : ℕ) : PathResult :=
  astarLoop walk goal maxDist rfuel fuel (initState start goal)

/-! ## C5: `findPath` with `start == goal`

The source stores `fScore(start) = gridDistance(start, end) = 0` and the
min-scan reads it through `fScore.get(node) || Infinity`; `0` is falsy, so
the scan never selects the start node, `current` stays `''`, and
`if (!current) break` aborts the loop: `findPath(start, start, …)` returns
`null`, not the single-element path `[start]` the spec promises. -/

theorem C5_start_eq_goal_null (walk : ℤ → ℤ → Bool) (start : Pt)
    (maxDist fuel rfuel : ℕ) :
    findPath walk start start maxDist (fuel + 1) rfuel = PathResult.null := by
  have hsq : sqDist start start = 0 := by simp [sqDist]
  simp [findPath, astarLoop, astarStep, initState, scanMin, mget, jsOrInfF, hsq]

/-! ## C3: divergence of `findPath` on the obstacle-free 10×10 grid

With every cell of the 10×10 grid walkable (including the start), the
expansion of `(1,1)` at the second iteration re-parents the start:
`gScore.get("0,0")` is `0`, falsy, so `tentativeGScore < (gScore.get(k) ||
Infinity)` compares against `Infinity` and succeeds, setting
`cameFrom("0,0") = "1,1"` while `cameFrom("1,1") = "0,0"`.  When the goal
`(9,9)` is popped at the tenth iteration, the reconstruction loop
`while (curr) { …; curr = cameFrom.get(curr) || '' }` walks
`(9,9) → (8,8) → … → (1,1) → (0,0) → (1,1) → …` and never terminates.  In
the fuel model: for every fuel allocation the function fails to complete. -/

/-- The walkability predicate of an obstacle-free 10×10 grid. -/
def walk10 : ℤ → ℤ → Bool := fun x y =>
  decide (0 ≤ x) && decide (x < 10) && decide (0 ≤ y) && decide (y < 10)

/-- Iterate `cont` steps of the search. -/
def stepN (walk : ℤ → ℤ → Bool) (goal : Pt) (maxDist : ℕ) : ℕ → AState → AState
  | 0, s => s
  | n + 1, s =>
    match astarStep walk goal maxDist s with
    | .cont s' => stepN walk goal maxDist n s'
    | _ => s

/-- The `cameFrom` map at the moment the goal `(9,9)` is popped (after nine
`cont` iterations). -/
def came10 : List (Pt × Pt) :=
  (stepN walk10 ⟨9, 9⟩ 50 9 (initState ⟨0, 0⟩ ⟨9, 9⟩)).cameFrom

theorem came10_cycle0 : mget ⟨0, 0⟩ came10 = some ⟨1, 1⟩ := by decide

theorem came10_cycle1 : mget ⟨1, 1⟩ came10 = some ⟨0, 0⟩ := by decide

/-- Reconstruction never terminates from either node of the parent cycle. -/
theorem recon_cycle (R : ℕ) : ∀ acc,
    reconstruct came10 R ⟨0, 0⟩ acc = none ∧
    reconstruct came10 R ⟨1, 1⟩ acc = none := by
  induction R with
  | zero => intro acc; exact ⟨rfl, rfl⟩
  | succ n ih =>
    intro acc
    constructor
    · rw [reconstruct, came10_cycle0]
      exact (ih _).2
    · rw [reconstruct, came10_cycle1]
      exact (ih _).1

/-- A reconstruction that reaches a diverging node diverges. -/
theorem recon_step (came : List (Pt × Pt)) (k k' : Pt)
    (h : mget k came = some k')
    (h2 : ∀ R acc, reconstruct came R k' acc = none) :
    ∀ R acc, reconstruct came R k acc = none := by
  intro R acc
  cases R with
  | zero => rfl
  | succ n =>
    rw [reconstruct, h]
    exact h2 n _

theorem recon_from_goal10 (R : ℕ) : reconstruct came10 R ⟨9, 9⟩ [] = none := by
  have h1 : ∀ R acc, reconstruct came10 R ⟨1, 1⟩ acc = none :=
    fun R acc => (recon_cycle R acc).2
  have h2 := recon_step came10 ⟨2, 2⟩ ⟨1, 1⟩ (by decide) h1
  have h3 := recon_step came10 ⟨3, 3⟩ ⟨2, 2⟩ (by decide) h2
  have h4 := recon_step came10 ⟨4, 4⟩ ⟨3, 3⟩ (by decide) h3
  have h5 := recon_step came10 ⟨5, 5⟩ ⟨4, 4⟩ (by decide) h4
  have h6 := recon_step came10 ⟨6, 6⟩ ⟨5, 5⟩ (by decide) h5
  have h7 := recon_step came10 ⟨7, 7⟩ ⟨6, 6⟩ (by decide) h6
  have h8 := recon_step came10 ⟨8, 8⟩ ⟨7, 7⟩ (by decide) h7
  have h9 := recon_step came10 ⟨9, 9⟩ ⟨8, 8⟩ (by decide) h8
  exact h9 R []

/-- C3 (code bug).  The spec asserts that on the obstacle-free 10×10 grid
the search returns the optimal diagonal path of cost `9 * sqrt 2`; instead
`findPath((0,0), (9,9))` never returns: for every fuel allocation the run is
still incomplete (the reconstruction loops on the `(0,0) ↔ (1,1)` parent
cycle created by the falsy-zero `gScore.get(k) || Infinity` idiom). -/
theorem C3_astar_diverges (fuel rfuel : ℕ) :
    findPath walk10 ⟨0, 0⟩ ⟨9, 9⟩ 50 fuel rfuel = PathResult.fuelOut := by
  rcases Nat.lt_or_ge fuel 10 with h | h
  · interval_cases fuel <;> rfl
  · obtain ⟨m, rfl⟩ : ∃ m, fuel = m + 10 := ⟨fuel - 10, by omega⟩
    have key : findPath walk10 ⟨0, 0⟩ ⟨9, 9⟩ 50 (m + 10) rfuel =
        (match reconstruct came10 rfuel ⟨9, 9⟩ [] with
         | some p => PathResult.path p
         | none => PathResult.fuelOut) := rfl
    rw [key, recon_from_goal10]

/-! ## Exact rational arithmetic that the kernel can evaluate

World-side numbers (fractional agent positions, timers, screen coordinates)
are exact rationals.  `Q n d` denotes `n / (d + 1)`; fractions are not
reduced, so all operations are plain integer arithmetic.  The `Q.toRat_*`
lemmas identify each operation with the corresponding operation on `ℚ`. -/

structure Q where
  n : ℤ
  d : ℕ
deriving DecidableEq, Repr

/-- The (always positive) denominator. -/
def Q.den (q : Q) : ℕ := q.d + 1

def Q.toRat (q : Q) : ℚ := (q.n : ℚ) / (q.den : ℚ)

def Q.ofInt (z : ℤ) : Q := ⟨z, 0⟩

/-- Reduce a fraction by the gcd of numerator and denominator.  This is a
change of representation only (`Q.toRat_norm`); it keeps the integers small
enough for the kernel to evaluate long runs. -/
def Q.norm (q : Q) : Q :=
  ⟨q.n / (Nat.gcd q.n.natAbs q.den : ℤ), q.den / Nat.gcd q.n.natAbs q.den - 1⟩

def Q.add (a b : Q) : Q :=
  Q.norm ⟨a.n * b.den + b.n * a.den, a.den * b.den - 1⟩

def Q.neg (a : Q) : Q := ⟨-a.n, a.d⟩

def Q.sub (a b : Q) : Q := a.add b.neg

def Q.mul (a b : Q) : Q := Q.norm ⟨a.n * b.n, a.den * b.den - 1⟩

/-- Reciprocal (`0` maps to `0`, matching `ℚ`; the embedding never divides
by a value that can be `0`). -/
def Q.inv (a : Q) : Q :=
  if 0 < a.n then ⟨(a.den : ℤ), a.n.toNat - 1⟩
  else if a.n < 0 then ⟨-(a.den : ℤ), (-a.n).toNat - 1⟩
  else ⟨0, 0⟩

def Q.div (a b : Q) : Q := a.mul b.inv

def Q.ltb (a b : Q) : Bool := decide (a.n * (b.den : ℤ) < b.n * (a.den : ℤ))

def Q.leb (a b : Q) : Bool := decide (a.n * (b.den : ℤ) ≤ b.n * (a.den : ℤ))

def Q.eqb (a b : Q) : Bool := decide (a.n * (b.den : ℤ) = b.n * (a.den : ℤ))

/-- `Math.floor`. -/
def Q.floor (q : Q) : ℤ := q.n / (q.den : ℤ)

/-- Whether the represented rational is an integer. -/
def Q.isInt (q : Q) : Bool := decide (q.n % (q.den : ℤ) = 0)

theorem Q.den_cast_pos (q : Q) : (0 : ℚ) < (q.den : ℚ) := by
  exact_mod_cast Nat.succ_pos q.d

theorem Q.den_cast_ne (q : Q) : ((q.den : ℚ)) ≠ 0 := ne_of_gt q.den_cast_pos

theorem Q.den_raw (x : ℤ) (a b : Q) :
    ((⟨x, a.den * b.den - 1⟩ : Q)).den = a.den * b.den := by
  simp only [Q.den]
  have : 1 ≤ (a.d + 1) * (b.d + 1) := Nat.one_le_iff_ne_zero.mpr (by positivity)
  omega

theorem Q.toRat_norm (q : Q) : (Q.norm q).toRat = q.toRat := by
  unfold Q.norm Q.toRat Q.den
  generalize hG : Nat.gcd q.n.natAbs (q.d + 1) = g
  have hgpos : 0 < g := hG ▸ Nat.gcd_pos_of_pos_right _ (Nat.succ_pos q.d)
  have hgdn : ((g : ℤ)) ∣ q.n :=
    hG ▸ Int.dvd_natAbs.mp (Int.natCast_dvd_natCast.mpr (Nat.gcd_dvd_left _ _))
  have hgdd : g ∣ (q.d + 1) := hG ▸ Nat.gcd_dvd_right _ _
  have hstep : (q.d + 1) / g - 1 + 1 = (q.d + 1) / g := by
    have : 0 < (q.d + 1) / g := Nat.div_pos (Nat.le_of_dvd (by omega) hgdd) hgpos
    omega
  rw [hstep]
  obtain ⟨n', hn'⟩ := hgdn
  obtain ⟨d', hd'⟩ := hgdd
  rw [hn', hd']
  rw [Int.mul_ediv_cancel_left _ (by exact_mod_cast hgpos.ne')]
  rw [Nat.mul_div_cancel_left _ hgpos]
  push_cast
  rw [mul_div_mul_left _ _ (show ((g : ℚ)) ≠ 0 by exact_mod_cast hgpos.ne')]

theorem Q.toRat_ofInt (z : ℤ) : (Q.ofInt z).toRat = (z : ℚ) := by
  simp [Q.toRat, Q.ofInt, Q.den]

theorem Q.toRat_add (a b : Q) : (a.add b).toRat = a.toRat + b.toRat := by
  rw [Q.add, Q.toRat_norm]
  have h := Q.den_raw (a.n * b.den + b.n * a.den) a b
  simp only [Q.toRat] at *
  rw [h]
  push_cast
  rw [div_add_div _ _ a.den_cast_ne b.den_cast_ne]
  congr 1
  push_cast
  ring

theorem Q.toRat_neg (a : Q) : a.neg.toRat = -a.toRat := by
  simp [Q.toRat, Q.neg, Q.den, neg_div]

theorem Q.toRat_sub (a b : Q) : (a.sub b).toRat = a.toRat - b.toRat := by
  rw [Q.sub, Q.toRat_add, Q.toRat_neg]
  ring

theorem Q.toRat_mul (a b : Q) : (a.mul b).toRat = a.toRat * b.toRat := by
  rw [Q.mul, Q.toRat_norm]
  have h := Q.den_raw (a.n * b.n) a b
  simp only [Q.toRat] at *
  rw [h]
  push_cast
  rw [div_mul_div_comm]

theorem Q.toRat_inv (a : Q) : a.inv.toRat = a.toRat⁻¹ := by
  rcases lt_trichotomy a.n 0 with h | h | h
  · have hn : ¬ 0 < a.n := by omega
    have hd : ((-a.n).toNat - 1) + 1 = (-a.n).toNat := by omega
    simp only [Q.inv, if_neg hn, if_pos h, Q.toRat, Q.den, hd]
    have h2 : (((-a.n).toNat : ℚ)) = -(a.n : ℚ) := by
      have : ((-a.n).toNat : ℤ) = -a.n := Int.toNat_of_nonneg (by omega)
      exact_mod_cast congrArg (Int.cast : ℤ → ℚ) this
    rw [h2, inv_div]
    push_cast
    rw [div_neg, neg_div, neg_neg]
  · have hn : ¬ 0 < a.n := by omega
    have hn' : ¬ a.n < 0 := by omega
    simp [Q.inv, hn, hn', h, Q.toRat, Q.den]
  · have hd : a.n.toNat - 1 + 1 = a.n.toNat := by omega
    simp only [Q.inv, if_pos h, Q.toRat, Q.den, hd]
    have h2 : ((a.n.toNat : ℚ)) = (a.n : ℚ) := by
      have : (a.n.toNat : ℤ) = a.n := Int.toNat_of_nonneg (by omega)
      exact_mod_cast congrArg (Int.cast : ℤ → ℚ) this
    rw [h2, inv_div]
    norm_cast

theorem Q.toRat_div (a b : Q) : (a.div b).toRat = a.toRat / b.toRat := by
  rw [Q.div, Q.toRat_mul, Q.toRat_inv, div_eq_mul_inv]

theorem Q.ltb_iff (a b : Q) : a.ltb b = true ↔ a.toRat < b.toRat := by
  rw [Q.ltb, decide_eq_true_eq, Q.toRat, Q.toRat,
    div_lt_div_iff a.den_cast_pos b.den_cast_pos]
  constructor <;> intro h <;> exact_mod_cast h

theorem Q.leb_iff (a b : Q) : a.leb b = true ↔ a.toRat ≤ b.toRat := by
  rw [Q.leb, decide_eq_true_eq, Q.toRat, Q.toRat,
    div_le_div_iff a.den_cast_pos b.den_cast_pos]
  constructor <;> intro h <;> exact_mod_cast h

theorem Q.eqb_iff (a b : Q) : a.eqb b = true ↔ a.toRat = b.toRat := by
  rw [Q.eqb, decide_eq_true_eq, Q.toRat, Q.toRat,
    div_eq_div_iff a.den_cast_ne b.den_cast_ne]
  constructor <;> intro h <;> exact_mod_cast h

theorem Q.floor_eq (q : Q) : q.floor = ⌊q.toRat⌋ := by
  rw [Q.floor, Q.toRat, Rat.floor_intCast_div_natCast]

theorem Q.isInt_iff (q : Q) : q.isInt = true ↔ q.toRat = (q.floor : ℚ) := by
  rw [Q.isInt, decide_eq_true_eq, Q.floor, Q.toRat]
  have hd : ((q.den : ℤ)) ≠ 0 := by
    simp only [Q.den]
    omega
  have hden : ((q.den : ℚ)) ≠ 0 := q.den_cast_ne
  constructor
  · intro h
    obtain ⟨k, hk⟩ := Int.dvd_of_emod_eq_zero h
    rw [hk, Int.mul_ediv_cancel_left _ hd]
    push_cast
    exact mul_div_cancel_left₀ _ hden
  · intro h
    have h2 : (q.n : ℚ) = ((q.n / (q.den : ℤ) : ℤ) : ℚ) * (q.den : ℚ) :=
      (div_eq_iff hden).mp h
    have h3 : q.n = (q.n / (q.den : ℤ)) * (q.den : ℤ) := by exact_mod_cast h2
    rw [h3]
    exact Int.mul_emod_left _ _

/-! ## Exact square roots of rationals

`Math.sqrt` on a `Q` value: when the square root is rational the model
computes it exactly (`sqrtQ q = some r` with `r ≥ 0`, `r^2 = q`); otherwise
`sqrtQ` returns `none` and the caller reports that the run left the
exact-arithmetic model.  The integer square root is a fuel-bounded binary
search; `sqrtQ` verifies the result by squaring, so its correctness does not
depend on the fuel. -/

def isqrtGo (n : ℕ) : ℕ → ℕ → ℕ → ℕ
  | 0, lo, _ => lo
  | fuel + 1, lo, hi =>
    if hi ≤ lo then lo
    else
      let mid := (lo + hi + 1) / 2
      if mid * mid ≤ n then isqrtGo n fuel mid hi else isqrtGo n fuel lo (mid - 1)

def isqrt (n : ℕ) : ℕ := isqrtGo n 4096 0 n

/-- `sqrt (n / d) = sqrt (n * d) / d`: rational iff `n * d` is a perfect
square. -/
def sqrtQ (q : Q) : Option Q :=
  if q.n * (q.den : ℤ) < 0 then none
  else
    if (isqrt (q.n * (q.den : ℤ)).toNat : ℤ) * (isqrt (q.n * (q.den : ℤ)).toNat : ℤ) =
        q.n * (q.den : ℤ) then
      some ⟨(isqrt (q.n * (q.den : ℤ)).toNat : ℤ), q.d⟩
    else none

theorem sqrtQ_correct (q r : Q) (h : sqrtQ q = some r) :
    0 ≤ r.toRat ∧ r.toRat ^ 2 = q.toRat := by
  unfold sqrtQ at h
  split_ifs at h with hs hr
  injection h with h'
  subst h'
  constructor
  · simp only [Q.toRat]
    positivity
  · have hden : ((q.den : ℚ)) ≠ 0 := q.den_cast_ne
    have hrd : (⟨(isqrt (q.n * (q.den : ℤ)).toNat : ℤ), q.d⟩ : Q).den = q.den := rfl
    simp only [Q.toRat, hrd]
    rw [div_pow]
    have hz : ((isqrt (q.n * (q.den : ℤ)).toNat : ℤ)) ^ 2 = q.n * (q.den : ℤ) := by
      rw [pow_two]
      exact hr
    have hq : (((isqrt (q.n * (q.den : ℤ)).toNat : ℤ) : ℚ)) ^ 2 =
        (q.n : ℚ) * (q.den : ℚ) := by exact_mod_cast hz
    rw [hq, pow_two]
    field_simp
    ring

/-! ## Coordinate transforms (`IsometricUtils`, constructed with
`tileWidth = 64`, `tileHeight = 32`, `origin = (450, 100)` — both the
constructor defaults and the arguments `EtheriusWorldService` passes).
`tileWidth / 2 = 32` and `tileHeight / 2 = 16` are exact. -/

/-- `gridToScreen(gridX, gridY, z)`. -/
def gridToScreen (gx gy z : Q) : Q × Q :=
  ((Q.ofInt 450).add ((gx.sub gy).mul (Q.ofInt 32)),
   ((Q.ofInt 100).add ((gx.add gy).mul (Q.ofInt 16))).sub z)

/-- `screenToGrid(screenX, screenY)` (floor, not rounding). -/
def screenToGrid (sx sy : Q) : ℤ × ℤ :=
  ((((sx.sub (Q.ofInt 450)).div (Q.ofInt 32)).add
      ((sy.sub (Q.ofInt 100)).div (Q.ofInt 16))).div (Q.ofInt 2) |>.floor,
   (((sy.sub (Q.ofInt 100)).div (Q.ofInt 16)).sub
      ((sx.sub (Q.ofInt 450)).div (Q.ofInt 32))).div (Q.ofInt 2) |>.floor)

/-- C2.  Round-trip law: for every integer grid cell `(gx, gy)`, with the
transform parameters fixed at construction (tile width 64, tile height 32,
origin (450, 100)), `screenToGrid` applied to `gridToScreen (gx, gy, 0)`
returns exactly `(gx, gy)`. -/
theorem C2_roundtrip (gx gy : ℤ) :
    screenToGrid (gridToScreen (Q.ofInt gx) (Q.ofInt gy) (Q.ofInt 0)).1
      (gridToScreen (Q.ofInt gx) (Q.ofInt gy) (Q.ofInt 0)).2 = (gx, gy) := by
  refine Prod.ext ?_ ?_
  · show Q.floor _ = gx
    rw [Q.floor_eq]
    have h : (((((gridToScreen (Q.ofInt gx) (Q.ofInt gy) (Q.ofInt 0)).1.sub
        (Q.ofInt 450)).div (Q.ofInt 32)).add
        (((gridToScreen (Q.ofInt gx) (Q.ofInt gy) (Q.ofInt 0)).2.sub
        (Q.ofInt 100)).div (Q.ofInt 16))).div (Q.ofInt 2)).toRat = (gx : ℚ) := by
      simp only [gridToScreen, Q.toRat_div, Q.toRat_add, Q.toRat_sub, Q.toRat_mul,
        Q.toRat_ofInt]
      push_cast
      ring
    rw [h, Int.floor_intCast]
  · show Q.floor _ = gy
    rw [Q.floor_eq]
    have h : ((((((gridToScreen (Q.ofInt gx) (Q.ofInt gy) (Q.ofInt 0)).2.sub
        (Q.ofInt 100)).div (Q.ofInt 16)).sub
        (((gridToScreen (Q.ofInt gx) (Q.ofInt gy) (Q.ofInt 0)).1.sub
        (Q.ofInt 450)).div (Q.ofInt 32))).div (Q.ofInt 2))).toRat = (gy : ℚ) := by
      simp only [gridToScreen, Q.toRat_div, Q.toRat_add, Q.toRat_sub, Q.toRat_mul,
        Q.toRat_ofInt]
      push_cast
      ring
    rw [h, Int.floor_intCast]

/-! ## The world service (`EtheriusWorldService`)

Grid 20×20.  `Math.random()` is modelled by a scripted stream of rationals
(each draw is assumed to lie in `[0, 1)`, the codomain of `Math.random`);
when the stream is exhausted, draws return `1/2`.  Particles are cosmetic
and handled by the external sprite manager (out of scope per the spec), so
they are not modelled; `handleConsensus` and `broadcastQuery` are not needed
by any claim and are omitted.  The error monad captures the situations in
which the source's behaviour leaves the exact-arithmetic model:
`badIndex` is the JS `TypeError` from indexing `tileOccupancy` with a
fractional or out-of-range first index, `irrational` marks a movement step
whose length is an irrational square root (the source computes it in
floating point; no claim depends on such a step), and `fuelOut` marks
exhaustion of a fuel bound on a source loop. -/

inductive Activity
  | idle | walking | talking | thinking | analyzing | trading
deriving DecidableEq, Repr

inductive Mood
  | happy | neutral | thinking | excited | concerned
deriving DecidableEq, Repr

structure WorldAgent where
  id : String
  name : String
  personality : String
  emoji : String
  color : String
  gridX : Q
  gridY : Q
  targetX : ℤ
  targetY : ℤ
  screenX : Q
  screenY : Q
  z : Q
  activity : Activity
  speech : Option String
  speechTimer : Q
  animationFrame : ℕ
  animationTimer : Q
  mood : Mood
  path : Option (List Pt)
  pathIndex : ℕ
  moveSpeed : Q
deriving DecidableEq, Repr

structure WorldObject where
  id : String
  type : String
  gridX : ℤ
  gridY : ℤ
  width : ℤ
  height : ℤ
  interactive : Bool
  active : Bool
deriving DecidableEq, Repr

structure Zone where
  id : String
  name : String
  type : String
  gridStartX : ℤ
  gridStartY : ℤ
  gridEndX : ℤ
  gridEndY : ℤ
  color : String
  ambientLight : String
deriving DecidableEq, Repr

inductive UErr
  | badIndex
  | irrational
  | fuelOut
deriving DecidableEq, Repr

/-- The `tileOccupancy` 2D boolean array, column-major like the source
(`tileOccupancy[x][y]`).  Reads and writes are guarded in range by their
callers. -/
def gridGet (g : List (List Bool)) (x y : ℤ) : Bool :=
  (g.getD x.toNat []).getD y.toNat false

def gridSet (g : List (List Bool)) (x y : ℤ) (v : Bool) : List (List Bool) :=
  match g.get? x.toNat with
  | none => g
  | some row => g.set x.toNat (row.set y.toNat v)

structure World where
  agents : List WorldAgent
  occ : List (List Bool)
  fracWrite : Bool
  worldTime : Q
  dayNightCycle : Q
  selectedAgent : Option String
  zones : List Zone
  objects : List WorldObject
  rand : List Q
deriving DecidableEq, Repr

def gridWidth : ℤ := 20
def gridHeight : ℤ := 20

/-- `isTileWalkable(x, y)`: false out of bounds or when occupied. -/
def isTileWalkable (w : World) (x y : ℤ) : Bool :=
  if x < 0 ∨ gridWidth ≤ x ∨ y < 0 ∨ gridHeight ≤ y then false
  else !(gridGet w.occ x y)

/-- A write `tileOccupancy[x][y] = v` with possibly fractional coordinates.
If `x` is not an integer in `[0, gridWidth)`, `tileOccupancy[x]` is
`undefined` and the write throws (`badIndex`).  If `x` is fine but `y` is
fractional or out of range, JS silently creates a junk property that
integer-indexed reads never see: the grid is unchanged and the
`fracWrite` instrumentation flag records the event. -/
def occWrite (w : World) (x y : Q) (v : Bool) : Except UErr World :=
  if x.isInt && decide (0 ≤ x.floor) && decide (x.floor < gridWidth) then
    if y.isInt && decide (0 ≤ y.floor) && decide (y.floor < gridHeight) then
      .ok { w with occ := gridSet w.occ x.floor y.floor v }
    else .ok { w with fracWrite := true }
  else .error .badIndex

/-- The user agents of `MultiAgentService` (id, name, personality, emoji,
color; risk tolerance and expertise are never read by the world service). -/
def userAgents : List (String × String × String × String × String) :=
  [("kartik", "Kartik", "Visionary Builder", "🔨", "#3498db"),
   ("vitalik", "Vitalik", "Philosophical Analyst", "🧮", "#9b59b6"),
   ("mik", "Mik", "Street-Smart Trader", "💰", "#f39c12")]

def startPositions : List (ℤ × ℤ) := [(3, 3), (17, 3), (10, 10)]

def mkWorldAgent (ua : String × String × String × String × String)
    (i : ℕ) : WorldAgent :=
  let pos := startPositions.getD (i % startPositions.length) (0, 0)
  let scr := gridToScreen (Q.ofInt pos.1) (Q.ofInt pos.2) (Q.ofInt 0)
  { id := ua.1, name := ua.2.1, personality := ua.2.2.1, emoji := ua.2.2.2.1,
    color := ua.2.2.2.2,
    gridX := Q.ofInt pos.1, gridY := Q.ofInt pos.2,
    targetX := pos.1, targetY := pos.2,
    screenX := scr.1, screenY := scr.2, z := Q.ofInt 0,
    activity := .idle, speech := none, speechTimer := Q.ofInt 0,
    animationFrame := 0, animationTimer := Q.ofInt 0, mood := .neutral,
    path := none, pathIndex := 0, moveSpeed := Q.ofInt 2 }

def initZones : List Zone :=
  [⟨"tech-lab", "Tech Lab", "tech", 0, 0, 6, 6, "#2c3e50", "#3498db"⟩,
   ⟨"trading-floor", "Trading Floor", "trading", 14, 0, 20, 6, "#27ae60", "#2ecc71"⟩,
   ⟨"nft-gallery", "NFT Gallery", "gallery", 0, 14, 6, 20, "#8e44ad", "#9b59b6"⟩,
   ⟨"conference-room", "Conference Room", "conference", 14, 14, 20, 20, "#c0392b", "#e74c3c"⟩,
   ⟨"central-lounge", "Central Lounge", "lounge", 7, 7, 13, 13, "#34495e", "#95a5a6"⟩]

def initObjects : List WorldObject :=
  [⟨"terminal-1", "terminal", 15, 2, 2, 2, true, true⟩,
   ⟨"terminal-2", "terminal", 18, 2, 2, 2, true, true⟩,
   ⟨"conference-table", "table", 16, 16, 3, 3, false, false⟩,
   ⟨"nft-display-1", "display", 2, 15, 1, 2, true, true⟩,
   ⟨"nft-display-2", "display", 2, 18, 1, 2, true, true⟩,
   ⟨"crypto-vending", "vending", 10, 7, 1, 2, true, true⟩]

/-- `addObject`: mark the footprint (bounds-checked against the upper edge
only, as in the source). -/
def addObjectOcc (f : List (List Bool)) (o : WorldObject) : List (List Bool) :=
  (List.range o.width.toNat).foldl
    (fun f1 i =>
      (List.range o.height.toNat).foldl
        (fun f2 j =>
          let x := o.gridX + (i : ℤ)
          let y := o.gridY + (j : ℤ)
          if x < gridWidth ∧ y < gridHeight then gridSet f2 x y true
          else f2)
        f1)
    f

/-- `initializeWorld` / `createZones` / `createAgents` / `createWorldObjects`:
agents are placed (marking their start cells occupied), then the world
objects are added. -/
def initWorld (randStream : List Q) : World :=
  let agents := userAgents.enum.map (fun p => mkWorldAgent p.2 p.1)
  let occAgents := agents.foldl
    (fun f a => gridSet f a.gridX.floor a.gridY.floor true)
    (List.replicate 20 (List.replicate 20 false))
  let occAll := initObjects.foldl addObjectOcc occAgents
  { agents := agents, occ := occAll, fracWrite := false,
    worldTime := Q.ofInt 0, dayNightCycle := Q.ofInt 0,
    selectedAgent := none, zones := initZones, objects := initObjects,
    rand := randStream }

def findAgent (w : World) (aid : String) : Option WorldAgent :=
  w.agents.find? (fun a => a.id = aid)

/-- `Array.from(this.agents.values()).find(a => a.name === name)`. -/
def findAgentByName (w : World) (nm : String) : Option WorldAgent :=
  w.agents.find? (fun a => a.name = nm)

/-- In-place mutation of an agent object, modelled by id (ids are unique). -/
def setAgent (w : World) (a : WorldAgent) : World :=
  { w with agents := w.agents.map (fun b => if b.id = a.id then a else b) }

/-- One `Math.random()` draw from the scripted stream. -/
def drawRand (w : World) : Q × World :=
  match w.rand with
  | [] => (⟨1, 1⟩, w)
  | r :: rest => (r, { w with rand := rest })

/-- `findNearestWalkableTile`: radius 1..5; for each radius the full square
`dx, dy ∈ [-radius, radius]` is scanned in order, returning the first
walkable cell. -/
def findNearestWalkableTile (w : World) (x y : ℤ) : Option (ℤ × ℤ) :=
  (List.range 5).findSome? (fun (rk : ℕ) =>
    (List.range (2 * rk + 3)).findSome? (fun (di : ℕ) =>
      (List.range (2 * rk + 3)).findSome? (fun (dj : ℕ) =>
        let cx := x + (di : ℤ) - ((rk : ℤ) + 1)
        let cy := y + (dj : ℤ) - ((rk : ℤ) + 1)
        if isTileWalkable w cx cy then some (cx, cy) else none)))

/-- Fuel for the A* loop and the path reconstruction when invoked from the
world (the source loops are unbounded; these bounds are far beyond the
number of iterations possible on the 20×20 grid). -/
def pathFuel : ℕ := 20000

def reconFuel : ℕ := 2000

/-- The successful tail of `moveAgentTo`: install the path. -/
def applyPath (w : World) (a : WorldAgent) (tx ty : ℤ) (p : List Pt) : World :=
  setAgent w { a with path := some p, pathIndex := 0, targetX := tx, targetY := ty,
                      activity := .walking }

/-- `moveAgentTo(agent, targetX, targetY)`.  The source passes the agent's
raw (possibly fractional) position as the A* start.  A fractional `gridX`
makes the `isWalkable` closure evaluate `tileOccupancy[x]` at a fractional
in-range index on the very first expansion: `undefined[y]` throws a JS
`TypeError` to the caller — modelled as `badIndex`.  With an integer
`gridX` and a fractional `gridY` every probe `tileOccupancy[x][y]` is
`undefined` (treated walkable, no throw), the search walks a lattice whose
`y` values keep the fractional offset and never equal the integer goal, so
the bounded loop terminates, `findPath` returns `null`, and the move is
silently dropped. -/
def moveAgentTo (w : World) (aid : String) (tx ty : ℤ) : Except UErr World :=
  match findAgent w aid with
  | none => .ok w
  | some a =>
    let resolved : Option (ℤ × ℤ) :=
      if isTileWalkable w tx ty then some (tx, ty)
      else findNearestWalkableTile w tx ty
    match resolved with
    | none => .ok w
    | some t =>
      if a.gridX.isInt then
        if a.gridY.isInt then
          match findPath (fun x y => isTileWalkable w x y)
              ⟨a.gridX.floor, a.gridY.floor⟩ ⟨t.1, t.2⟩ 50 pathFuel reconFuel with
          | .path p => if 1 < p.length then .ok (applyPath w a t.1 t.2 p) else .ok w
          | .null => .ok w
          | .fuelOut => .error .fuelOut
        else .ok w
      else .error .badIndex

/-- `moveAgentToZone(agent, zoneType)`. -/
def moveAgentToZone (w : World) (aid : String) (zoneType : String) :
    Except UErr World :=
  match w.zones.find? (fun z => z.type = zoneType) with
  | none => .ok w
  | some z =>
    let (r1, w1) := drawRand w
    let (r2, w2) := drawRand w1
    let tx := z.gridStartX + (r1.mul (Q.ofInt (z.gridEndX - z.gridStartX))).floor
    let ty := z.gridStartY + (r2.mul (Q.ofInt (z.gridEndY - z.gridStartY))).floor
    moveAgentTo w2 aid tx ty

/-- `getMoodFromRiskAssessment`: the fixed lookup table with default
`neutral`. -/
def getMoodFromRiskAssessment (risk : String) : Mood :=
  if risk = "low" then .happy
  else if risk = "medium" then .neutral
  else if risk = "calculated" then .thinking
  else if risk = "high" then .excited
  else if risk = "yolo" then .excited
  else .neutral

/-- `handleDiscussion(discussion)`: find the agent by name; set speech,
speech timer 300, activity `talking`, mood from the risk table; then move it
toward the conference zone.  (Mood particles are cosmetic and external.) -/
def handleDiscussion (w : World) (agentName msg risk : String) :
    Except UErr World :=
  match findAgentByName w agentName with
  | none => .ok w
  | some a =>
    let a1 := { a with speech := some msg, speechTimer := Q.ofInt 300,
                       activity := Activity.talking,
                       mood := getMoodFromRiskAssessment risk }
    moveAgentToZone (setAgent w a1) a1.id "conference"

/-- `selectAgent(agent)`. -/
def selectAgent (w : World) (a : WorldAgent) : World :=
  let a1 := { a with speech := some ("Hi! I\x27m " ++ a.name ++ "!"),
                     speechTimer := Q.ofInt 120 }
  { setAgent w a1 with selectedAgent := some a.id }

/-- `handleClick(screenX, screenY)`: resolve the cell; a `forEach` scan keeps
the last agent whose floored position matches; select it, else move the
previously selected agent. -/
def handleClick (w : World) (sx sy : Q) : Except UErr World :=
  let g := screenToGrid sx sy
  let clicked := w.agents.foldl
    (fun acc a =>
      if a.gridX.floor = g.1 ∧ a.gridY.floor = g.2 then some a else acc)
    none
  match clicked with
  | some a => .ok (selectAgent w a)
  | none =>
    match w.selectedAgent with
    | some aid => moveAgentTo w aid g.1 g.2
    | none => .ok w

/-- The squared distance from an agent's fractional position to a waypoint
(the source compares `Math.sqrt` of it against `0.1`; we compare the square
against `0.01`, which is equivalent since distances are nonnegative). -/
def waypointDistSq (a : WorldAgent) (tgt : Pt) : Q :=
  (((Q.ofInt tgt.x).sub a.gridX).mul ((Q.ofInt tgt.x).sub a.gridX)).add
    (((Q.ofInt tgt.y).sub a.gridY).mul ((Q.ofInt tgt.y).sub a.gridY))

/-- Whether the agent is within the snap distance of its next waypoint (the
condition of the snap branch below). -/
def snapHazard (a : WorldAgent) : Bool :=
  match a.path with
  | none => false
  | some p =>
    match p.get? a.pathIndex with
    | none => false
    | some tgt => (waypointDistSq a tgt).ltb ⟨1, 99⟩

/-- The movement phase of `updateAgent` (source step: `if (agent.path &&
agent.pathIndex < agent.path.length) { … }`).  When within the snap distance
(`distance < 0.1`, compared as squared distance < `0.01`), snap: release the
occupancy cell at the *pre-snap, generally fractional* position, take the
waypoint's cell, occupy it, advance the path index, and on path exhaustion
clear the path and set activity `idle`.  Otherwise advance by
`moveSpeed * deltaTime / 1000` along the normalized direction.  Both
branches refresh the screen position. -/
def updateAgentMove (dt : Q) (w : World) (b : WorldAgent) :
    Except UErr (World × WorldAgent) :=
  match b.path with
  | none => .ok (w, b)
  | some p =>
    match p.get? b.pathIndex with
    | none => .ok (w, b)
    | some tgt =>
      match (waypointDistSq b tgt).ltb ⟨1, 99⟩ with
      | true =>
        match occWrite w b.gridX b.gridY false with
        | .error e => .error e
        | .ok w1 =>
          match occWrite w1 (Q.ofInt tgt.x) (Q.ofInt tgt.y) true with
          | .error e => .error e
          | .ok w2 =>
            let path2 := if p.length ≤ b.pathIndex + 1 then none else some p
            let act2 := if p.length ≤ b.pathIndex + 1 then Activity.idle
                        else b.activity
            let scr := gridToScreen (Q.ofInt tgt.x) (Q.ofInt tgt.y) b.z
            .ok (w2, { b with gridX := Q.ofInt tgt.x, gridY := Q.ofInt tgt.y,
                              pathIndex := b.pathIndex + 1,
                              path := path2, activity := act2,
                              screenX := scr.1, screenY := scr.2 })
      | false =>
        let md := (b.moveSpeed.mul dt).div (Q.ofInt 1000)
        let nx := ((Q.ofInt tgt.x).sub b.gridX).mul md
        let ny := ((Q.ofInt tgt.y).sub b.gridY).mul md
        if (nx.eqb (Q.ofInt 0) && ny.eqb (Q.ofInt 0)) = true then
          let scr := gridToScreen b.gridX b.gridY b.z
          .ok (w, { b with screenX := scr.1, screenY := scr.2 })
        else
          match sqrtQ (waypointDistSq b tgt) with
          | some dist =>
            let gx := b.gridX.add (nx.div dist)
            let gy := b.gridY.add (ny.div dist)
            let scr := gridToScreen gx gy b.z
            .ok (w, { b with gridX := gx, gridY := gy,
                             screenX := scr.1, screenY := scr.2 })
          | none => .error .irrational

/-- `updateAgent(agent, deltaTime)`: animation advance; speech-timer
countdown (`-= deltaTime / 16.67`; on reaching ≤ 0, speech is cleared and
the activity is set to `idle` unconditionally); then the movement phase. -/
def updateAgent (dt : Q) (w : World) (a : WorldAgent) :
    Except UErr (World × WorldAgent) :=
  let at1 := a.animationTimer.add dt
  let animT := if (Q.ofInt 150).ltb at1 then Q.ofInt 0 else at1
  let animF := if (Q.ofInt 150).ltb at1 then (a.animationFrame + 1) % 4
               else a.animationFrame
  let sT := if (Q.ofInt 0).ltb a.speechTimer then
      a.speechTimer.sub (dt.div ⟨1667, 99⟩) else a.speechTimer
  let expire := ((Q.ofInt 0).ltb a.speechTimer) && (sT.leb (Q.ofInt 0))
  let sp := if expire then none else a.speech
  let act1 := if expire then Activity.idle else a.activity
  updateAgentMove dt w
    { a with animationTimer := animT, animationFrame := animF,
             speechTimer := sT, speech := sp, activity := act1 }

def updateAgentsGo (dt : Q) : World → List WorldAgent → Except UErr World
  | w, [] => .ok w
  | w, a :: rest => do
    let r ← updateAgent dt w a
    updateAgentsGo dt (setAgent r.1 r.2) rest

/-- `triggerRandomActivity`: a random agent gets one of four scripted
speech/activity/zone-move combinations. -/
def triggerRandomActivity (w : World) : Except UErr World :=
  if w.agents.isEmpty then .ok w
  else
    let (r1, w1) := drawRand w
    let idx := ((r1.mul (Q.ofInt w1.agents.length)).floor).toNat
    match w1.agents.get? idx with
    | none => .ok w1
    | some a =>
      let (r2, w2) := drawRand w1
      let k := (r2.mul (Q.ofInt 4)).floor
      let pick : String × Activity × String :=
        if k = 0 then ("Analyzing market data...", .analyzing, "trading")
        else if k = 1 then ("Checking NFT collections...", .thinking, "gallery")
        else if k = 2 then ("Time for a strategy meeting!", .talking, "conference")
        else ("Building something cool...", .thinking, "tech")
      let a1 := { a with speech := some pick.1, speechTimer := Q.ofInt 120,
                         activity := pick.2.1 }
      moveAgentToZone (setAgent w2 a1) a1.id pick.2.2

/-- Fractional part (`% 1`; world time is nonnegative in every run). -/
def fract (q : Q) : Q := q.sub (Q.ofInt q.floor)

/-- `update(deltaTime)`: advance world time and the day/night phase, update
every agent in insertion order, then with probability `0.005` trigger a
random flavor activity.  (The particle pass only ages cosmetic particles via
the external sprite manager and is not modelled.) -/
def update (w : World) (dt : Q) : Except UErr World := do
  let wt := w.worldTime.add dt
  let w0 := { w with worldTime := wt,
                     dayNightCycle := fract (wt.div (Q.ofInt 60000)) }
  let w1 ← updateAgentsGo dt w0 w0.agents
  let (r, w2) := drawRand w1
  if r.ltb ⟨1, 199⟩ then triggerRandomActivity w2 else .ok w2

/-! ## Command scripts (the public entry points reachable from outside) -/

inductive Cmd
  | update (dt : Q)
  | moveTo (aid : String) (x y : ℤ)
  | moveToZone (aid : String) (zoneType : String)
  | click (sx sy : Q)
  | discuss (agentName msg risk : String)

def runCmd (w : World) : Cmd → Except UErr World
  | .update dt => update w dt
  | .moveTo aid x y => moveAgentTo w aid x y
  | .moveToZone aid zt => moveAgentToZone w aid zt
  | .click sx sy => handleClick w sx sy
  | .discuss nm msg risk => handleDiscussion w nm msg risk

def runScript (w : World) : List Cmd → Except UErr World
  | [] => .ok w
  | c :: cs => do
    let w1 ← runCmd w c
    runScript w1 cs

/-- The integer cell of an agent in a run result (`Math.floor` of the
fractional position), `none` if the run failed or the agent is unknown. -/
def agentCell (r : Except UErr World) (aid : String) : Option (ℤ × ℤ) :=
  match r with
  | .ok w => (findAgent w aid).map (fun a => (a.gridX.floor, a.gridY.floor))
  | .error _ => none

/-- Claim-relevant observable fields of an agent: integer cell, activity,
mood, speech, speech-timer positivity, whether a path is pending, and the
stored move target. -/
structure Obs where
  cell : ℤ × ℤ
  activity : Activity
  mood : Mood
  speech : Option String
  speaking : Bool
  hasPath : Bool
  target : ℤ × ℤ
deriving DecidableEq, Repr

def agentObs (r : Except UErr World) (aid : String) : Option Obs :=
  match r with
  | .ok w => (findAgent w aid).map (fun a =>
      ⟨(a.gridX.floor, a.gridY.floor), a.activity, a.mood, a.speech,
       (Q.ofInt 0).ltb a.speechTimer, a.path.isSome, (a.targetX, a.targetY)⟩)
  | .error _ => none

/-- The `fracWrite` instrumentation flag of a run result. -/
def fracFlag (r : Except UErr World) : Option Bool :=
  match r with
  | .ok w => some w.fracWrite
  | .error _ => none

/-! ## Concrete reachable runs used by the claims

All runs start from `initWorld` and use only public entry points
(`moveAgentTo`, `handleClick`, `handleDiscussion`, `update`).  `update`
draws one random number per frame; a draw of `1/2` (the default once the
scripted stream is exhausted) never triggers the flavor activity
(`1/2 ≥ 0.005`).  A frame time of `500 ms` moves a walking agent by exactly
`moveSpeed * 500 / 1000 = 1` cell, so positions stay exactly representable;
`460 ms` moves it by `0.92`. -/

def upd500 : Cmd := .update (Q.ofInt 500)

/-- C1's run: kartik walks along row 3 from (3,3) toward (14,3); while it is
under way, vitalik (walled into column 17 at row 3 by the two trading
terminals) drops to row 4, crosses to (12,4), and then steps onto (12,3) — a
cell of kartik's already-planned path.  Kartik's stale path is never
re-validated, so kartik walks onto the occupied cell. -/
def c1script : List Cmd :=
  [.moveTo "kartik" 14 3, .moveTo "vitalik" 17 4] ++ List.replicate 3 upd500 ++
  [.moveTo "vitalik" 12 4] ++ List.replicate 11 upd500 ++
  [.moveTo "vitalik" 12 3] ++ List.replicate 4 upd500

def c1run : Except UErr World := runScript (initWorld []) c1script

/-- C4/C9's run prefix: mik walks from (10,10) toward (10,11); after the
start-cell snap (500 ms) and one partial step (460 ms) it rests at
fractional position (10, 10.92), within the 0.1 snap distance of the
waypoint. -/
def snapEdgeScript : List Cmd :=
  [.moveTo "mik" 10 11, .update (Q.ofInt 500), .update (Q.ofInt 460)]

def c4pre : Except UErr World := runScript (initWorld []) snapEdgeScript

def c4post : Except UErr World :=
  match c4pre with
  | .ok w => update w (Q.ofInt 0)
  | .error e => .error e

/-- C9's run: one more 500 ms frame snaps mik to (10,11); the snap first
executes `tileOccupancy[10][10.92] = false` — a fractional-index write. -/
def c9script : List Cmd := snapEdgeScript ++ [upd500]

def c9run : Except UErr World := runScript (initWorld []) c9script

/-- C1 (code bug).  In the reachable state after `c1script`, the two
distinct agents kartik and vitalik occupy the same integer grid cell
(12, 3): the occupancy invariant does not hold for the code. -/
theorem C1_occupancy_violation :
    agentCell c1run "kartik" = some (12, 3) ∧
    agentCell c1run "vitalik" = some (12, 3) ∧
    ("kartik" : String) ≠ "vitalik" := by
  decide

/-- C9 (code bug).  The run completes without error, but the waypoint snap
of the last frame releases the occupancy cell at the agent's pre-snap
position `(10, 10.92)`: a `tileOccupancy` write with a fractional index
(the JS expando-property junk write), which the total embedding records in
`fracWrite`.  Before that frame no such access had happened. -/
theorem C9_fractional_index :
    fracFlag c9run = some true ∧ fracFlag c4pre = some false := by
  decide

/-- C4 (counterexample).  In the reachable state `c4pre`, mik stands at
fractional position (10, 10.92) — integer cell (10,10) — with an active
path and activity `walking`.  Calling `update(0)` snaps it to (10,11):
the integer grid cell and the activity both change under a zero elapsed
time. -/
theorem C4_counterexample :
    agentObs c4pre "mik" =
      some ⟨(10, 10), .walking, .neutral, none, false, true, (10, 11)⟩ ∧
    agentObs c4post "mik" =
      some ⟨(10, 11), .idle, .neutral, none, false, false, (10, 11)⟩ := by
  exact ⟨by decide, by decide⟩

/-! ## C7: speech expiry

The source clears speech and sets the activity to `idle` unconditionally
when a speech timer reaches zero, even for an agent that is mid-path; the
movement code never restores `walking`. -/

/-- C7's run: a click at mik's own screen position (`gridToScreen(10,10) =
(450, 420)`) selects it, setting a 120-frame speech timer; mik is then sent
walking toward (10,14).  At the fifth 500 ms frame the timer crosses zero
while the path still has cells ahead. -/
def c7script : List Cmd :=
  [.click (Q.ofInt 450) (Q.ofInt 420), .moveTo "mik" 10 14] ++
  List.replicate 5 upd500

def c7run : Except UErr World := runScript (initWorld []) c7script

/-- C7 (counterexample).  After `c7script`, mik has just snapped to
(10, 12) with the path to (10,14) still active (`hasPath = true`), yet its
speech has been cleared and its activity set to `idle` — not kept at
`walking` as the claim states. -/
theorem C7_counterexample :
    agentObs c7run "mik" =
      some ⟨(10, 12), .idle, .neutral, none, false, true, (10, 14)⟩ := by
  decide

/-- The movement phase never touches the speech and can change the activity
only to `idle` (on path exhaustion). -/
theorem updateAgentMove_obs (dt : Q) (w : World) (b : WorldAgent) :
    ∀ r, updateAgentMove dt w b = .ok r →
      r.2.speech = b.speech ∧
      (r.2.activity = b.activity ∨ r.2.activity = .idle) := by
  intro r hr
  unfold updateAgentMove at hr
  split at hr
  · cases hr
    exact ⟨rfl, Or.inl rfl⟩
  · split at hr
    · cases hr
      exact ⟨rfl, Or.inl rfl⟩
    · split at hr
      · -- snap branch: two occupancy writes
        split at hr
        · cases hr
        · split at hr
          · cases hr
          · cases hr
            refine ⟨rfl, ?_⟩
            show (if _ ≤ _ then Activity.idle else b.activity) = b.activity ∨ _
            split
            · exact Or.inr rfl
            · exact Or.inl rfl
      · -- advance branch
        rename_i tgt hget cnd hltb
        by_cases hz :
            (((((Q.ofInt tgt.x).sub b.gridX).mul
                ((b.moveSpeed.mul dt).div (Q.ofInt 1000))).eqb (Q.ofInt 0) &&
              ((((Q.ofInt tgt.y).sub b.gridY).mul
                ((b.moveSpeed.mul dt).div (Q.ofInt 1000))).eqb (Q.ofInt 0)))
              = true)
        · rw [if_pos hz] at hr
          cases hr
          exact ⟨rfl, Or.inl rfl⟩
        · rw [if_neg hz] at hr
          split at hr
          · cases hr
            exact ⟨rfl, Or.inl rfl⟩
          · cases hr

/-- C7 (amended).  During an update step in which an agent's active speech
timer reaches zero, the speech is cleared and the activity is set to `idle`
unconditionally — also when the agent still has an unfinished path (the
agent keeps following the path while labeled `idle`). -/
theorem C7_amended (w : World) (a : WorldAgent) (dt : Q)
    (hactive : (Q.ofInt 0).ltb a.speechTimer = true)
    (hexpire : (a.speechTimer.sub (dt.div ⟨1667, 99⟩)).leb (Q.ofInt 0) = true) :
    ∀ r, updateAgent dt w a = .ok r →
      r.2.speech = none ∧ r.2.activity = .idle := by
  intro r hr
  unfold updateAgent at hr
  simp only [hactive, hexpire, if_true, Bool.true_and] at hr
  have h := updateAgentMove_obs _ _ _ r hr
  refine ⟨h.1, ?_⟩
  rcases h.2 with h2 | h2 <;> exact h2

/-- C7 (witness for the amended theorem): a concrete agent, mid-path and
with 10 frames of speech left, updated with `dt = 500`. -/
def c7wAgent : WorldAgent :=
  { (initWorld []).agents.getD 2 (mkWorldAgent ("", "", "", "", "") 0) with
    speech := some "hello", speechTimer := Q.ofInt 10,
    path := some [⟨10, 10⟩, ⟨10, 11⟩, ⟨10, 12⟩], pathIndex := 1 }

theorem C7_witness :
    (updateAgent (Q.ofInt 500) (initWorld []) c7wAgent).toOption.map
      (fun r => (r.2.speech, r.2.activity)) = some (none, Activity.idle) := by
  cases hr : updateAgent (Q.ofInt 500) (initWorld []) c7wAgent with
  | error e =>
    have hne : ¬ (updateAgent (Q.ofInt 500) (initWorld []) c7wAgent).toOption = none := by
      decide
    rw [hr] at hne
    simp [Except.toOption] at hne
  | ok r =>
    have h := C7_amended (initWorld []) c7wAgent (Q.ofInt 500)
      (by decide) (by decide) r hr
    simp [Except.toOption, h.1, h.2]

/-! ## Helper lemmas for C6 and C8 (nearest-walkable search, setAgent) -/

/-- A successful nearest-walkable search yields a walkable cell within
Chebyshev radius 5 of the query cell. -/
theorem findNearest_spec (w : World) (x y : ℤ) (c : ℤ × ℤ)
    (h : findNearestWalkableTile w x y = some c) :
    isTileWalkable w c.1 c.2 = true ∧
    (c.1 - x).natAbs ≤ 5 ∧ (c.2 - y).natAbs ≤ 5 := by
  unfold findNearestWalkableTile at h
  obtain ⟨rk, hrk, h2⟩ := List.exists_of_findSome?_eq_some h
  obtain ⟨di, hdi, h3⟩ := List.exists_of_findSome?_eq_some h2
  obtain ⟨dj, hdj, h4⟩ := List.exists_of_findSome?_eq_some h3
  rw [List.mem_range] at hrk hdi hdj
  simp only [] at h4
  split at h4
  · rename_i hwalk
    cases h4
    refine ⟨hwalk, ?_, ?_⟩ <;> omega
  · cases h4

/-- `find?` by id over a `setAgent`-style map returns the written agent as
soon as some stored agent carries that id. -/
theorem find_set (a1 : WorldAgent) (s : String) (hs : a1.id = s) :
    ∀ l : List WorldAgent, (∃ x ∈ l, x.id = s) →
      (l.map (fun b => if b.id = s then a1 else b)).find?
        (fun b => b.id = s) = some a1 := by
  intro l
  induction l with
  | nil =>
    intro h
    obtain ⟨x, hx, _⟩ := h
    exact absurd hx (List.not_mem_nil x)
  | cons y t ih =>
    intro h
    simp only [List.map_cons, List.find?_cons]
    by_cases hc : y.id = s
    · rw [if_pos hc]
      simp [hs]
    · rw [if_neg hc]
      obtain ⟨x, hx, hxid⟩ := h
      rcases List.mem_cons.mp hx with rfl | hxt
      · exact absurd hxid hc
      · simp only [hc, decide_False]
        exact ih ⟨x, hxt, hxid⟩

theorem findAgent_setAgent (w : World) (a1 : WorldAgent) (s : String)
    (hs : a1.id = s) (hx : ∃ x ∈ w.agents, x.id = s) :
    findAgent (setAgent w a1) s = some a1 := by
  unfold findAgent setAgent
  simp only [hs]
  exact find_set a1 s hs w.agents hx

/-- Bounds for the zone sampling: `0 ≤ r < 1` gives
`0 ≤ ⌊r·m⌋ < m` for a positive integer span `m`. -/
theorem Q.floor_mul_bound (r : Q) (m : ℤ) (hm : 0 < m)
    (h0 : (Q.ofInt 0).leb r = true) (h1 : r.ltb (Q.ofInt 1) = true) :
    0 ≤ (r.mul (Q.ofInt m)).floor ∧ (r.mul (Q.ofInt m)).floor < m := by
  rw [Q.leb_iff, Q.toRat_ofInt] at h0
  rw [Q.ltb_iff, Q.toRat_ofInt] at h1
  rw [Q.floor_eq, Q.toRat_mul, Q.toRat_ofInt]
  push_cast at h0 h1
  have hmq : (0 : ℚ) < (m : ℚ) := by exact_mod_cast hm
  constructor
  · exact Int.floor_nonneg.mpr (mul_nonneg h0 hmq.le)
  · rw [Int.floor_lt]
    have h2 : r.toRat * (m : ℚ) < 1 * (m : ℚ) :=
      mul_lt_mul_of_pos_right h1 hmq
    linarith

/-! ## C6: discussion handling -/

/-- C6's world: eighteen draws of `1/2` feed the eighteen update frames
(never firing the 0.005 flavor trigger), then two draws of `0` make
`moveAgentToZone` sample the conference cell `(14, 14)`. -/
def c6world : World := initWorld (List.replicate 18 ⟨1, 1⟩ ++ [⟨0, 0⟩, ⟨0, 0⟩])

/-- C6's run: mik walks `(10,10) → (10,14) → (14,14)` (nine 500 ms frames
each), so that the discussion event's sampled conference cell `(14, 14)` is
occupied by mik itself and the nearest-walkable fallback resolves to
`(13, 13)`. -/
def c6script : List Cmd :=
  [.moveTo "mik" 10 14] ++ List.replicate 9 upd500 ++
  [.moveTo "mik" 14 14] ++ List.replicate 9 upd500 ++
  [.discuss "Mik" "msg" "high"]

def c6run : Except UErr World := runScript c6world c6script

/-- C6 (counterexample).  The discussion event for "Mik" sets the speech,
timer and mood as claimed, but the issued move's destination is `(13, 13)` —
*outside* the conference zone's rectangle `[14,20) × [14,20)`: the sampled
cell was occupied, and `findNearestWalkableTile` may leave the zone. -/
theorem C6_counterexample :
    agentObs c6run "mik" =
      some ⟨(14, 14), .walking, .excited, some "msg", true, true, (13, 13)⟩ ∧
    (∀ z ∈ initZones, z.type = "conference" →
      ¬(z.gridStartX ≤ 13 ∧ 13 < z.gridEndX ∧
        z.gridStartY ≤ 13 ∧ 13 < z.gridEndY)) := by
  exact ⟨by decide, by decide⟩

/-! ## C4: update(0) on snap-safe worlds -/

/-- The observable fields of C4 (id, integer cell, activity, speech). -/
def obsF4 (a : WorldAgent) : String × (ℤ × ℤ) × Activity × Option String :=
  (a.id, (a.gridX.floor, a.gridY.floor), a.activity, a.speech)

theorem bindOk {α β : Type} (a : α) (f : α → Except UErr β) :
    (Except.ok a >>= f) = f a := rfl

/-- `find?` by id yields equal observables on two agent lists with the same
ids whenever a single id-indexed table describes the observables of both. -/
theorem find_obs_eq (g : String → Option (String × (ℤ × ℤ) × Activity × Option String)) :
    ∀ (l l' : List WorldAgent),
      l'.map WorldAgent.id = l.map WorldAgent.id →
      (∀ x ∈ l, g x.id = some (obsF4 x)) →
      (∀ x ∈ l', g x.id = some (obsF4 x)) →
      ∀ aid, (l'.find? (fun a => a.id = aid)).map obsF4 =
             (l.find? (fun a => a.id = aid)).map obsF4 := by
  intro l
  induction l with
  | nil =>
    intro l' hid _ _ aid
    have : l' = [] := List.map_eq_nil.mp hid
    subst this
    rfl
  | cons x t ih =>
    intro l' hid hl hl' aid
    cases l' with
    | nil => simp at hid
    | cons x' t' =>
      simp only [List.map_cons, List.cons.injEq] at hid
      obtain ⟨hxid, htid⟩ := hid
      simp only [List.find?_cons]
      rw [hxid]
      cases hd : (decide (x.id = aid)) with
      | false =>
        exact ih t' htid (fun y hy => hl y (List.mem_cons_of_mem _ hy))
          (fun y hy => hl' y (List.mem_cons_of_mem _ hy)) aid
      | true =>
        have h1 := hl x (List.mem_cons_self _ _)
        have h2 := hl' x' (List.mem_cons_self _ _)
        rw [hxid, h1] at h2
        exact h2.symm

/-- With `dt = 0` and the agent not within snap distance of a waypoint,
one agent update succeeds, leaves the world untouched and preserves the
agent's id, fractional position, activity and speech. -/
theorem updateAgent_zero (w : World) (a : WorldAgent) (h : snapHazard a = false) :
    ∃ a2, updateAgent (Q.ofInt 0) w a = .ok (w, a2) ∧ a2.id = a.id ∧
      a2.gridX = a.gridX ∧ a2.gridY = a.gridY ∧
      a2.activity = a.activity ∧ a2.speech = a.speech := by
  have hexp : ∀ t : Q,
      (((Q.ofInt 0).ltb t) &&
        ((if (Q.ofInt 0).ltb t then t.sub ((Q.ofInt 0).div ⟨1667, 99⟩) else t).leb
          (Q.ofInt 0))) = false := by
    intro t
    cases h0 : (Q.ofInt 0).ltb t with
    | false => rw [Bool.false_and]
    | true =>
      rw [Bool.true_and, if_pos rfl]
      have ht : (0 : ℚ) < t.toRat := by
        have h1 := (Q.ltb_iff _ _).mp h0
        rw [Q.toRat_ofInt] at h1
        exact_mod_cast h1
      cases hl : (t.sub ((Q.ofInt 0).div ⟨1667, 99⟩)).leb (Q.ofInt 0) with
      | false => rfl
      | true =>
        exfalso
        have h2 := (Q.leb_iff _ _).mp hl
        rw [Q.toRat_sub, Q.toRat_div, Q.toRat_ofInt] at h2
        norm_num at h2
        linarith
  have hmd : ∀ u v : Q,
      ((u.sub v).mul ((a.moveSpeed.mul (Q.ofInt 0)).div (Q.ofInt 1000))).eqb
        (Q.ofInt 0) = true := by
    intro u v
    rw [Q.eqb_iff, Q.toRat_mul, Q.toRat_div, Q.toRat_mul, Q.toRat_ofInt,
      Q.toRat_ofInt]
    norm_num
  unfold snapHazard waypointDistSq at h
  unfold updateAgent updateAgentMove
  simp only [hexp, Bool.false_eq_true, if_false, waypointDistSq]
  cases hp : a.path with
  | none =>
    exact ⟨_, rfl, rfl, rfl, rfl, rfl, rfl⟩
  | some p =>
    simp only [hp] at h
    simp only []
    cases hg : p.get? a.pathIndex with
    | none =>
      exact ⟨_, rfl, rfl, rfl, rfl, rfl, rfl⟩
    | some tgt =>
      simp only [hg] at h
      simp only [h, hmd, Bool.and_self, if_pos]
      exact ⟨_, rfl, rfl, rfl, rfl, rfl, rfl⟩

/-- Updating a snap-safe agent list with `dt = 0` succeeds and preserves
every non-agent world field, the id sequence, and the id-indexed
observable table. -/
theorem updateAgentsGo_zero
    (g : String → Option (String × (ℤ × ℤ) × Activity × Option String)) :
    ∀ (as : List WorldAgent) (v : World),
      (∀ a ∈ as, snapHazard a = false) →
      (∀ a ∈ as, g a.id = some (obsF4 a)) →
      (∀ x ∈ v.agents, g x.id = some (obsF4 x)) →
      ∃ w2, updateAgentsGo (Q.ofInt 0) v as = .ok w2 ∧
        w2.agents.map WorldAgent.id = v.agents.map WorldAgent.id ∧
        (∀ x ∈ w2.agents, g x.id = some (obsF4 x)) ∧
        w2.rand = v.rand := by
  intro as
  induction as with
  | nil =>
    intro v _ _ hv
    exact ⟨v, rfl, rfl, hv, rfl⟩
  | cons a rest ih =>
    intro v hsnap hg hv
    obtain ⟨a2, he, hid, hx, hy, hact, hsp⟩ :=
      updateAgent_zero v a (hsnap a (List.mem_cons_self _ _))
    have hobs_a2 : obsF4 a2 = obsF4 a := by
      simp only [obsF4, hid, hx, hy, hact, hsp]
    have hv' : ∀ x ∈ (setAgent v a2).agents, g x.id = some (obsF4 x) := by
      intro x hxm
      simp only [setAgent, List.mem_map] at hxm
      obtain ⟨y, hym, hye⟩ := hxm
      by_cases hc : y.id = a2.id
      · rw [if_pos hc] at hye
        subst hye
        rw [hid, hobs_a2]
        exact hg a (List.mem_cons_self _ _)
      · rw [if_neg hc] at hye
        subst hye
        exact hv y hym
    have hids' : (setAgent v a2).agents.map WorldAgent.id =
        v.agents.map WorldAgent.id := by
      simp only [setAgent, List.map_map]
      refine List.map_congr_left ?_
      intro b _
      simp only [Function.comp_apply]
      by_cases hc : b.id = a2.id
      · rw [if_pos hc, hc]
      · rw [if_neg hc]
    obtain ⟨w2, he2, hids2, hobs2, hrand2⟩ :=
      ih (setAgent v a2) (fun x hx2 => hsnap x (List.mem_cons_of_mem _ hx2))
        (fun x hx2 => hg x (List.mem_cons_of_mem _ hx2)) hv'
    refine ⟨w2, ?_, ?_, hobs2, ?_⟩
    · simp only [updateAgentsGo, he, bindOk]
      exact he2
    · rw [hids2, hids']
    · rw [hrand2]
      rfl

/-- The tail of `update` with `dt = 0` on a snap-safe world: it succeeds
and the id-indexed observables of every agent are unchanged. -/
theorem update_zero_aux (w v : World)
    (hag : v.agents = w.agents) (hrd : v.rand = w.rand)
    (hsnap : ∀ a ∈ w.agents, snapHazard a = false)
    (hids : ∀ a ∈ w.agents, (findAgent w a.id).map obsF4 = some (obsF4 a))
    (hrand : ∀ q ∈ w.rand.take 1, q.ltb ⟨1, 199⟩ = false) :
    ∃ w2, (do
        let w1 ← updateAgentsGo (Q.ofInt 0) v v.agents
        let (r, w2p) := drawRand w1
        if r.ltb ⟨1, 199⟩ then triggerRandomActivity w2p else .ok w2p :
        Except UErr World) = .ok w2 ∧
      ∀ aid, (findAgent w2 aid).map obsF4 = (findAgent w aid).map obsF4 := by
  obtain ⟨w1, he1, hidl, hobs, hrnd⟩ :=
    updateAgentsGo_zero (fun i => (findAgent w i).map obsF4) v.agents v
      (by rw [hag]; exact hsnap) (by rw [hag]; exact hids)
      (by rw [hag]; exact hids)
  have hdr : ∃ rr ww, drawRand w1 = (rr, ww) ∧ rr.ltb ⟨1, 199⟩ = false ∧
      ww.agents = w1.agents := by
    unfold drawRand
    rw [hrnd, hrd]
    cases hR : w.rand with
    | nil => exact ⟨⟨1, 1⟩, w1, rfl, by decide, rfl⟩
    | cons r rs =>
      refine ⟨r, _, rfl, ?_, rfl⟩
      exact hrand r (by rw [hR]; exact List.mem_cons_self _ _)
  obtain ⟨rr, ww, hdr, hlt, hwag⟩ := hdr
  refine ⟨ww, ?_, ?_⟩
  · simp only [he1, bindOk, hdr, hlt, Bool.false_eq_true, if_false]
  · intro aid
    unfold findAgent
    rw [hwag]
    exact find_obs_eq (fun i => (findAgent w i).map obsF4) w.agents w1.agents
      (by rw [hidl, hag]) hids hobs aid

/-- C4 (amended).  `update(0)` preserves every agent's integer grid cell,
activity and speech — provided no agent is within snap distance of its next
waypoint (otherwise `update(0)` snaps it, see the counterexample), the
frame's random draw does not fire the 0.005 flavor trigger, and agent ids
are observably unambiguous. -/
theorem C4_amended (w : World)
    (hsnap : ∀ a ∈ w.agents, snapHazard a = false)
    (hids : ∀ a ∈ w.agents, (findAgent w a.id).map obsF4 = some (obsF4 a))
    (hrand : ∀ q ∈ w.rand.take 1, q.ltb ⟨1, 199⟩ = false) :
    ∃ w2, update w (Q.ofInt 0) = .ok w2 ∧
      ∀ aid, (findAgent w2 aid).map obsF4 = (findAgent w aid).map obsF4 := by
  unfold update
  exact update_zero_aux w _ rfl rfl hsnap hids hrand

/-- C4 (witness for the amended theorem): the freshly initialized world —
no agent has a path, the random stream is empty, ids are distinct. -/
theorem C4_witness :
    ∃ w2, update (initWorld []) (Q.ofInt 0) = .ok w2 ∧
      ∀ aid, (findAgent w2 aid).map obsF4 =
        (findAgent (initWorld []) aid).map obsF4 :=
  C4_amended (initWorld []) (by decide) (by decide) (by decide)

/-- `moveAgentTo` on a stored agent: the stored record keeps its speech,
timer and mood; the move is either dropped (record unchanged in path and
target) or installed with a target within Chebyshev distance 5 of the
request (equal to it when the requested cell is walkable). -/
theorem moveTo_target (w : World) (a1 : WorldAgent) (s : String)
    (hs : a1.id = s) (hget : findAgent w s = some a1) (tx ty : ℤ) :
    ∀ w3, moveAgentTo w s tx ty = .ok w3 →
      ∃ b, findAgent w3 s = some b ∧
        b.speech = a1.speech ∧ b.speechTimer = a1.speechTimer ∧
        b.mood = a1.mood ∧
        ((b.targetX = a1.targetX ∧ b.targetY = a1.targetY ∧ b.path = a1.path) ∨
         ((b.targetX - tx).natAbs ≤ 5 ∧ (b.targetY - ty).natAbs ≤ 5)) := by
  intro w3 h3
  have hmem : a1 ∈ w.agents := List.mem_of_find?_eq_some hget
  unfold moveAgentTo at h3
  simp only [hget] at h3
  cases hw : isTileWalkable w tx ty with
  | true =>
    simp only [hw, eq_self_iff_true, if_true] at h3
    split at h3
    · split at h3
      · split at h3
        · split at h3
          · cases h3
            refine ⟨_, findAgent_setAgent w _ s hs ⟨a1, hmem, hs⟩, rfl, rfl, rfl,
              Or.inr ⟨?_, ?_⟩⟩
            · show (tx - tx).natAbs ≤ 5
              omega
            · show (ty - ty).natAbs ≤ 5
              omega
          · cases h3
            exact ⟨a1, hget, rfl, rfl, rfl, Or.inl ⟨rfl, rfl, rfl⟩⟩
        · cases h3
          exact ⟨a1, hget, rfl, rfl, rfl, Or.inl ⟨rfl, rfl, rfl⟩⟩
        · cases h3
      · cases h3
        exact ⟨a1, hget, rfl, rfl, rfl, Or.inl ⟨rfl, rfl, rfl⟩⟩
    · cases h3
  | false =>
    simp only [hw, Bool.false_eq_true, if_false] at h3
    cases hn : findNearestWalkableTile w tx ty with
    | none =>
      simp only [hn] at h3
      cases h3
      exact ⟨a1, hget, rfl, rfl, rfl, Or.inl ⟨rfl, rfl, rfl⟩⟩
    | some c =>
      obtain ⟨hcw, hb1, hb2⟩ := findNearest_spec w tx ty c hn
      simp only [hn] at h3
      split at h3
      · split at h3
        · split at h3
          · split at h3
            · cases h3
              exact ⟨_, findAgent_setAgent w _ s hs ⟨a1, hmem, hs⟩, rfl, rfl, rfl,
                Or.inr ⟨hb1, hb2⟩⟩
            · cases h3
              exact ⟨a1, hget, rfl, rfl, rfl, Or.inl ⟨rfl, rfl, rfl⟩⟩
          · cases h3
            exact ⟨a1, hget, rfl, rfl, rfl, Or.inl ⟨rfl, rfl, rfl⟩⟩
          · cases h3
        · cases h3
          exact ⟨a1, hget, rfl, rfl, rfl, Or.inl ⟨rfl, rfl, rfl⟩⟩
      · cases h3

/-- The conference move issued by a discussion: the sampled cell lies in the
conference rectangle `[14,20) × [14,20)`; the stored agent keeps speech,
timer and mood; an installed move's target is within distance 5 of the
sample. -/
theorem moveZone_conf (v : World) (a1 : WorldAgent) (s : String)
    (hs : a1.id = s)
    (hget : findAgent v s = some a1)
    (r1 r2 : Q) (rest : List Q)
    (hrand : v.rand = r1 :: r2 :: rest)
    (hzones : v.zones = initZones)
    (hr1a : (Q.ofInt 0).leb r1 = true) (hr1b : r1.ltb (Q.ofInt 1) = true)
    (hr2a : (Q.ofInt 0).leb r2 = true) (hr2b : r2.ltb (Q.ofInt 1) = true) :
    ∀ w3, moveAgentToZone v s "conference" = .ok w3 →
      ∃ b, findAgent w3 s = some b ∧
        b.speech = a1.speech ∧ b.speechTimer = a1.speechTimer ∧
        b.mood = a1.mood ∧
        ∃ tx ty : ℤ, 14 ≤ tx ∧ tx < 20 ∧ 14 ≤ ty ∧ ty < 20 ∧
          ((b.targetX = a1.targetX ∧ b.targetY = a1.targetY ∧ b.path = a1.path) ∨
           ((b.targetX - tx).natAbs ≤ 5 ∧ (b.targetY - ty).natAbs ≤ 5)) := by
  intro w3 h3
  have hzc : initZones.find? (fun z => z.type = "conference") =
      some ⟨"conference-room", "Conference Room", "conference", 14, 14, 20, 20,
        "#c0392b", "#e74c3c"⟩ := by decide
  unfold moveAgentToZone at h3
  rw [hzones] at h3
  simp only [hzc, drawRand, hrand] at h3
  obtain ⟨hx0, hx1⟩ := Q.floor_mul_bound r1 (20 - 14) (by norm_num) hr1a hr1b
  obtain ⟨hy0, hy1⟩ := Q.floor_mul_bound r2 (20 - 14) (by norm_num) hr2a hr2b
  have hget2 : findAgent { v with rand := rest } s = some a1 := hget
  obtain ⟨b, hfb, h1, h2, h4, h5⟩ := moveTo_target _ a1 s hs hget2 _ _ w3 h3
  refine ⟨b, hfb, h1, h2, h4, _, _, ?_, ?_, ?_, ?_, h5⟩ <;> omega

/-- C6 (amended).  A discussion event for a present agent sets that agent's
speech to the message with timer 300 and its mood by the risk table
(in particular "high" → excited), and issues a conference move whose
*sampled* cell lies in the conference rectangle `[14,20) × [14,20)`; the
actual stored destination is that cell when it is walkable, and otherwise a
nearby walkable cell within Chebyshev distance 5, which may lie *outside*
the zone; if no destination resolves (or the path is trivial) no move is
stored.  An event naming an unknown agent changes nothing. -/
theorem C6_amended (w : World) (agentName msg risk : String) (a : WorldAgent)
    (r1 r2 : Q) (rest : List Q)
    (hfind : findAgentByName w agentName = some a)
    (hrand : w.rand = r1 :: r2 :: rest)
    (hzones : w.zones = initZones)
    (hr1a : (Q.ofInt 0).leb r1 = true) (hr1b : r1.ltb (Q.ofInt 1) = true)
    (hr2a : (Q.ofInt 0).leb r2 = true) (hr2b : r2.ltb (Q.ofInt 1) = true) :
    getMoodFromRiskAssessment "high" = Mood.excited ∧
    (∀ nm, findAgentByName w nm = none →
      handleDiscussion w nm msg risk = .ok w) ∧
    ∀ w3, handleDiscussion w agentName msg risk = .ok w3 →
      ∃ b, findAgent w3 a.id = some b ∧
        b.speech = some msg ∧ b.speechTimer = Q.ofInt 300 ∧
        b.mood = getMoodFromRiskAssessment risk ∧
        ∃ tx ty : ℤ, 14 ≤ tx ∧ tx < 20 ∧ 14 ≤ ty ∧ ty < 20 ∧
          ((b.targetX = a.targetX ∧ b.targetY = a.targetY ∧ b.path = a.path) ∨
           ((b.targetX - tx).natAbs ≤ 5 ∧ (b.targetY - ty).natAbs ≤ 5)) := by
  refine ⟨rfl, ?_, ?_⟩
  · intro nm hnm
    unfold handleDiscussion
    rw [hnm]
  · intro w3 h3
    unfold handleDiscussion at h3
    simp only [hfind] at h3
    exact moveZone_conf _
      { a with speech := some msg, speechTimer := Q.ofInt 300,
               activity := Activity.talking,
               mood := getMoodFromRiskAssessment risk }
      a.id rfl
      (findAgent_setAgent w _ a.id rfl
        ⟨a, List.mem_of_find?_eq_some hfind, rfl⟩)
      r1 r2 rest hrand hzones hr1a hr1b hr2a hr2b w3 h3

/-- The agent record looked up by C6's witness (kartik in the initial world
with a two-draw random stream). -/
def c6wAgent : WorldAgent :=
  (initWorld [⟨0, 0⟩, ⟨0, 0⟩]).agents.getD 0 (mkWorldAgent ("", "", "", "", "") 0)

/-- C6 (witness for the amended theorem): the initial world with two scripted
zero draws, a discussion for "Kartik" with risk "high". -/
theorem C6_witness :
    getMoodFromRiskAssessment "high" = Mood.excited ∧
    (∀ nm, findAgentByName (initWorld [⟨0, 0⟩, ⟨0, 0⟩]) nm = none →
      handleDiscussion (initWorld [⟨0, 0⟩, ⟨0, 0⟩]) nm "meet" "high" =
        .ok (initWorld [⟨0, 0⟩, ⟨0, 0⟩])) ∧
    ∀ w3, handleDiscussion (initWorld [⟨0, 0⟩, ⟨0, 0⟩]) "Kartik" "meet" "high" =
        .ok w3 →
      ∃ b, findAgent w3 c6wAgent.id = some b ∧
        b.speech = some "meet" ∧ b.speechTimer = Q.ofInt 300 ∧
        b.mood = getMoodFromRiskAssessment "high" ∧
        ∃ tx ty : ℤ, 14 ≤ tx ∧ tx < 20 ∧ 14 ≤ ty ∧ ty < 20 ∧
          ((b.targetX = c6wAgent.targetX ∧ b.targetY = c6wAgent.targetY ∧
            b.path = c6wAgent.path) ∨
           ((b.targetX - tx).natAbs ≤ 5 ∧ (b.targetY - ty).natAbs ≤ 5)) :=
  C6_amended (initWorld [⟨0, 0⟩, ⟨0, 0⟩]) "Kartik" "meet" "high" c6wAgent
    ⟨0, 0⟩ ⟨0, 0⟩ [] (by decide) rfl rfl
    (by decide) (by decide) (by decide) (by decide)

/-! ## C8: destination resolution fallback -/

/-- C8's run prefix: mik walks from (10,10) toward (11,10); after the
start-cell snap (500 ms) and one partial step (460 ms) it rests at the
fractional position `(10.92, 10)`. -/
def c8preScript : List Cmd :=
  [.moveTo "mik" 11 10, upd500, .update (Q.ofInt 460)]

/-- The C8 counterexample's pre-state observables: whether the request's
target cell `(10, 7)` is walkable, and whether mik's coordinates are
integral. -/
def c8preObs : Option (Bool × Bool × Bool) :=
  match runScript (initWorld []) c8preScript with
  | .ok w =>
    (findAgent w "mik").map
      (fun a => (isTileWalkable w 10 7, a.gridX.isInt, a.gridY.isInt))
  | .error _ => none

/-- The error of a run result, if any. -/
def errFlag (r : Except UErr World) : Option UErr :=
  match r with
  | .ok _ => none
  | .error e => some e

def c8run : Except UErr World :=
  runScript (initWorld []) (c8preScript ++ [.moveTo "mik" 10 7])

/-- C8 (counterexample).  In the reachable state after `c8preScript` mik
rests at the fractional position `(10.92, 10)` (`gridX` fractional, `gridY`
integral) and the vending cell `(10, 7)` is unwalkable.  The move request to
that cell then surfaces an error to the caller — the source's `isWalkable`
closure evaluates `tileOccupancy` at a fractional in-range first index,
`undefined[y]`, a JS `TypeError` (modelled `badIndex`) — refuting the
claim's "no error surfaces to the caller". -/
theorem C8_counterexample :
    c8preObs = some (false, false, true) ∧
    errFlag c8run = some UErr.badIndex := by
  exact ⟨by decide, by decide⟩

/-- C8 (amended).  When the requested target cell is unwalkable,
`moveAgentTo` either changes nothing (unknown agent, or no walkable cell
within the radius-5 search), or resolves the destination through
`findNearestWalkableTile` to a *walkable* cell within Chebyshev distance 5
that is *never* the original unwalkable cell; the subsequent outcome is
then one of: the move silently dropped (null or trivial path, or a
fractional `gridY`), a move installed with exactly the resolved cell as its
target, or an error escaping to the caller (the fractional-`gridX`
`TypeError`, or the A* reconstruction cycle's divergence, modelled by
fuel). -/
theorem C8_fallback (w : World) (aid : String) (tx ty : ℤ)
    (hun : isTileWalkable w tx ty = false) :
    moveAgentTo w aid tx ty = .ok w ∨
    (∃ c : ℤ × ℤ, findNearestWalkableTile w tx ty = some c ∧
      isTileWalkable w c.1 c.2 = true ∧
      (c.1 - tx).natAbs ≤ 5 ∧ (c.2 - ty).natAbs ≤ 5 ∧ c ≠ (tx, ty) ∧
      (moveAgentTo w aid tx ty = .ok w ∨
       (∃ a p, findAgent w aid = some a ∧
          moveAgentTo w aid tx ty = .ok (applyPath w a c.1 c.2 p)) ∨
       (∃ e, moveAgentTo w aid tx ty = .error e))) := by
  unfold moveAgentTo
  cases hf : findAgent w aid with
  | none => exact Or.inl rfl
  | some a =>
    simp only [hun, Bool.false_eq_true, if_false]
    cases hn : findNearestWalkableTile w tx ty with
    | none => exact Or.inl rfl
    | some c =>
      obtain ⟨hcw, hb1, hb2⟩ := findNearest_spec w tx ty c hn
      refine Or.inr ⟨c, rfl, hcw, hb1, hb2, ?_, ?_⟩
      · intro heq
        rw [heq] at hcw
        simp only [] at hcw
        rw [hun] at hcw
        cases hcw
      · cases hix : a.gridX.isInt with
        | false =>
          simp only [Bool.false_eq_true, if_false]
          exact Or.inr (Or.inr ⟨.badIndex, rfl⟩)
        | true =>
          simp only [if_pos]
          cases hiy : a.gridY.isInt with
          | false =>
            simp only [Bool.false_eq_true, if_false]
            exact Or.inl trivial
          | true =>
            simp only [if_pos]
            cases hp : findPath (fun x y => isTileWalkable w x y)
                ⟨a.gridX.floor, a.gridY.floor⟩ ⟨c.1, c.2⟩ 50 pathFuel reconFuel with
            | path p =>
              simp only []
              by_cases hlen : 1 < p.length
              · rw [if_pos hlen]
                exact Or.inr (Or.inl ⟨a, p, rfl, rfl⟩)
              · rw [if_neg hlen]
                exact Or.inl rfl
            | null => exact Or.inl rfl
            | fuelOut => exact Or.inr (Or.inr ⟨.fuelOut, rfl⟩)

/-- C8 (witness): the vending machine footprint makes `(10, 7)` unwalkable
in the initial world; the theorem applies there. -/
theorem C8_witness :
    isTileWalkable (initWorld []) 10 7 = false ∧
    (moveAgentTo (initWorld []) "mik" 10 7 = .ok (initWorld []) ∨
     (∃ c : ℤ × ℤ, findNearestWalkableTile (initWorld []) 10 7 = some c ∧
       isTileWalkable (initWorld []) c.1 c.2 = true ∧
       (c.1 - 10).natAbs ≤ 5 ∧ (c.2 - 7).natAbs ≤ 5 ∧ c ≠ (10, 7) ∧
       (moveAgentTo (initWorld []) "mik" 10 7 = .ok (initWorld []) ∨
        (∃ a p, findAgent (initWorld []) "mik" = some a ∧
           moveAgentTo (initWorld []) "mik" 10 7 =
             .ok (applyPath (initWorld []) a c.1 c.2 p)) ∨
        (∃ e, moveAgentTo (initWorld []) "mik" 10 7 = .error e)))) :=
  ⟨by decide, C8_fallback (initWorld []) "mik" 10 7 (by decide)⟩

/-! ## C10: well-formedness of returned paths

The invariant: every `cameFrom` edge goes from a walkable 8-neighbor key to
its expanded parent; every parent and every open-set node is the start or a
`cameFrom` key.  A returned path is a reconstructed parent chain, hence
starts at `start` (the only possible chain terminal), ends at the goal,
steps only between 8-neighbors, and is walkable except possibly at its
head. -/

theorem mget_mem {α : Type} (k : Pt) (v : α) :
    ∀ l : List (Pt × α), mget k l = some v → (k, v) ∈ l := by
  intro l
  induction l with
  | nil => intro h; cases h
  | cons pr rest ih =>
    obtain ⟨k', v'⟩ := pr
    intro h
    simp only [mget] at h
    by_cases hk : k' = k
    · rw [if_pos hk] at h
      cases h
      subst hk
      exact List.mem_cons_self _ _
    · rw [if_neg hk] at h
      exact List.mem_cons_of_mem _ (ih h)

theorem mget_mset_self {α : Type} (k : Pt) (v : α) :
    ∀ l, mget k (mset k v l) = some v := by
  intro l
  induction l with
  | nil => simp [mset, mget]
  | cons pr rest ih =>
    obtain ⟨k', v'⟩ := pr
    simp only [mset]
    by_cases hk : k' = k
    · rw [if_pos hk]
      simp [mget, hk]
    · rw [if_neg hk]
      simp [mget, hk]
      exact ih

theorem mget_mset_ne {α : Type} (k q : Pt) (v : α) (hq : q ≠ k) :
    ∀ l, mget q (mset k v l) = mget q l := by
  intro l
  induction l with
  | nil =>
    simp only [mset, mget]
    rw [if_neg (fun h : k = q => hq h.symm)]
  | cons pr rest ih =>
    obtain ⟨k', v'⟩ := pr
    simp only [mset]
    by_cases hk : k' = k
    · rw [if_pos hk]
      have hkq : k' ≠ q := by rw [hk]; exact fun h => hq h.symm
      simp [mget, hkq]
    · rw [if_neg hk]
      simp only [mget]
      by_cases hkq : k' = q
      · rw [if_pos hkq, if_pos hkq]
      · rw [if_neg hkq, if_neg hkq]
        exact ih

theorem mget_mset_key {α : Type} (k q : Pt) (v : α) (l : List (Pt × α))
    (h : ∃ d, mget q l = some d) : ∃ d, mget q (mset k v l) = some d := by
  by_cases hq : q = k
  · subst hq
    exact ⟨v, mget_mset_self q v l⟩
  · rw [mget_mset_ne k q v hq l]
    exact h

theorem mem_mset {α : Type} (k : Pt) (v : α) :
    ∀ l pr, pr ∈ mset k v l → pr = (k, v) ∨ pr ∈ l := by
  intro l
  induction l with
  | nil =>
    intro pr hpr
    simp only [mset] at hpr
    rcases List.mem_singleton.mp hpr with rfl
    exact Or.inl rfl
  | cons hd rest ih =>
    obtain ⟨k', v'⟩ := hd
    intro pr hpr
    simp only [mset] at hpr
    by_cases hk : k' = k
    · rw [if_pos hk] at hpr
      rcases List.mem_cons.mp hpr with rfl | hrest
      · subst hk
        exact Or.inl rfl
      · exact Or.inr (List.mem_cons_of_mem _ hrest)
    · rw [if_neg hk] at hpr
      rcases List.mem_cons.mp hpr with rfl | hrest
      · exact Or.inr (List.mem_cons_self _ _)
      · rcases ih pr hrest with h | h
        · exact Or.inl h
        · exact Or.inr (List.mem_cons_of_mem _ h)

theorem osAdd_sub (l : List Pt) (p q : Pt) (h : q ∈ osAdd l p) :
    q ∈ l ∨ q = p := by
  unfold osAdd at h
  by_cases hp : p ∈ l
  · rw [if_pos hp] at h
    exact Or.inl h
  · rw [if_neg hp] at h
    rcases List.mem_append.mp h with h1 | h1
    · exact Or.inl h1
    · exact Or.inr (List.mem_singleton.mp h1)

theorem osErase_sub (p : Pt) : ∀ (l : List Pt) (q : Pt), q ∈ osErase l p → q ∈ l := by
  intro l
  induction l with
  | nil => intro q h; cases h
  | cons x rest ih =>
    intro q h
    simp only [osErase] at h
    by_cases hx : x = p
    · rw [if_pos hx] at h
      exact List.mem_cons_of_mem _ h
    · rw [if_neg hx] at h
      rcases List.mem_cons.mp h with rfl | h1
      · exact List.mem_cons_self _ _
      · exact List.mem_cons_of_mem _ (ih q h1)

theorem neighbor_adj {x y : ℤ} {n : Pt} (h : n ∈ getNeighbors x y) :
    (n.x - x).natAbs ≤ 1 ∧ (n.y - y).natAbs ≤ 1 ∧ n ≠ (⟨x, y⟩ : Pt) := by
  have hne : ∀ a b : ℤ, (a ≠ x ∨ b ≠ y) → (⟨a, b⟩ : Pt) ≠ ⟨x, y⟩ := by
    intro a b hab he
    cases he
    rcases hab with h1 | h1 <;> exact h1 rfl
  fin_cases h <;>
    exact ⟨by simp, by simp, hne _ _ (by omega)⟩

theorem scanMin_mem (fs : List (Pt × F3)) :
    ∀ (l : List Pt) (lowest : Option F3) (cur0 : Option Pt) (res : Pt),
      scanMin fs l lowest cur0 = some res → res ∈ l ∨ cur0 = some res := by
  intro l
  induction l with
  | nil =>
    intro lowest cur0 res h
    exact Or.inr h
  | cons n rest ih =>
    intro lowest cur0 res h
    simp only [scanMin] at h
    cases hj : jsOrInfF (mget n fs) with
    | none =>
      simp only [hj] at h
      rcases ih lowest cur0 res h with h1 | h1
      · exact Or.inl (List.mem_cons_of_mem _ h1)
      · exact Or.inr h1
    | some f =>
      simp only [hj] at h
      cases lowest with
      | none =>
        simp only [] at h
        rcases ih (some f) (some n) res h with h1 | h1
        · exact Or.inl (List.mem_cons_of_mem _ h1)
        · cases h1
          exact Or.inl (List.mem_cons_self _ _)
      | some lo =>
        simp only [] at h
        by_cases hlt : F3.ltb f lo = true
        · rw [if_pos hlt] at h
          rcases ih (some f) (some n) res h with h1 | h1
          · exact Or.inl (List.mem_cons_of_mem _ h1)
          · cases h1
            exact Or.inl (List.mem_cons_self _ _)
        · rw [if_neg hlt] at h
          rcases ih (some lo) cur0 res h with h1 | h1
          · exact Or.inl (List.mem_cons_of_mem _ h1)
          · exact Or.inr h1

theorem chain'_tail_rel {α : Type} (R : α → α → Prop) :
    ∀ l : List α, List.Chain' R l → ∀ q ∈ l.tail, ∃ a, R a q := by
  intro l
  induction l with
  | nil => intro _ q hq; cases hq
  | cons x rest ih =>
    intro hc q hq
    cases rest with
    | nil => cases hq
    | cons y t =>
      rw [List.chain'_cons] at hc
      simp only [List.tail_cons] at hq
      rcases List.mem_cons.mp hq with rfl | hq2
      · exact ⟨x, hc.1⟩
      · exact ih hc.2 q hq2

theorem head?_append_left {α : Type} (l1 l2 : List α) (a : α)
    (h : l1.head? = some a) : (l1 ++ l2).head? = some a := by
  cases l1 with
  | nil => cases h
  | cons x t => exact h

/-- The A* loop invariant: every `cameFrom` edge is a walkable 8-neighbor
key pointing to its parent; every parent and every open-set node is the
start or itself a `cameFrom` key. -/
def AInv (walk : ℤ → ℤ → Bool) (start : Pt) (s : AState) : Prop :=
  (∀ pr ∈ s.cameFrom, walk pr.1.x pr.1.y = true ∧
    (pr.1.x - pr.2.x).natAbs ≤ 1 ∧ (pr.1.y - pr.2.y).natAbs ≤ 1 ∧ pr.1 ≠ pr.2) ∧
  (∀ pr ∈ s.cameFrom, pr.2 = start ∨ ∃ d, mget pr.2 s.cameFrom = some d) ∧
  (∀ q ∈ s.openSet, q = start ∨ ∃ d, mget q s.cameFrom = some d)

theorem relaxRec_inv (walk : ℤ → ℤ → Bool) (start cur : Pt)
    (s : AState) (n : Pt) (tg : ℕ × ℕ) (fv : F3)
    (hA : AInv walk start s)
    (hcur : cur = start ∨ ∃ d, mget cur s.cameFrom = some d)
    (hn : walk n.x n.y = true)
    (hax : (n.x - cur.x).natAbs ≤ 1) (hay : (n.y - cur.y).natAbs ≤ 1)
    (hane : n ≠ cur) :
    AInv walk start
      { openSet := osAdd s.openSet n, cameFrom := mset n cur s.cameFrom,
        gScore := mset n tg s.gScore, fScore := mset n fv s.fScore } ∧
    (cur = start ∨ ∃ d, mget cur (mset n cur s.cameFrom) = some d) := by
  obtain ⟨hI1, hI3, hI2⟩ := hA
  refine ⟨⟨?_, ?_, ?_⟩, ?_⟩
  · intro pr hpr
    rcases mem_mset n cur s.cameFrom pr hpr with rfl | hold
    · exact ⟨hn, hax, hay, hane⟩
    · exact hI1 pr hold
  · intro pr hpr
    rcases mem_mset n cur s.cameFrom pr hpr with rfl | hold
    · rcases hcur with h | h
      · exact Or.inl h
      · exact Or.inr (mget_mset_key n cur cur s.cameFrom h)
    · rcases hI3 pr hold with h | h
      · exact Or.inl h
      · exact Or.inr (mget_mset_key n pr.2 cur s.cameFrom h)
  · intro q hq
    rcases osAdd_sub s.openSet n q hq with hqo | rfl
    · rcases hI2 q hqo with h | h
      · exact Or.inl h
      · exact Or.inr (mget_mset_key n q cur s.cameFrom h)
    · exact Or.inr ⟨cur, mget_mset_self q cur s.cameFrom⟩
  · rcases hcur with h | h
    · exact Or.inl h
    · exact Or.inr (mget_mset_key n cur cur s.cameFrom h)

theorem relax_inv (walk : ℤ → ℤ → Bool) (start goal cur : Pt) (gcur : ℕ × ℕ)
    (s : AState) (n : Pt)
    (hA : AInv walk start s)
    (hcur : cur = start ∨ ∃ d, mget cur s.cameFrom = some d)
    (hn : walk n.x n.y = true) (hadj : n ∈ getNeighbors cur.x cur.y) :
    AInv walk start (relax goal cur gcur s n) ∧
    (cur = start ∨ ∃ d, mget cur (relax goal cur gcur s n).cameFrom = some d) := by
  obtain ⟨hax, hay, hane⟩ := neighbor_adj hadj
  have haux := relaxRec_inv walk start cur s n (stepCost (sqDist cur n) gcur)
    ⟨(stepCost (sqDist cur n) gcur).1, (stepCost (sqDist cur n) gcur).2,
      sqDist n goal⟩ hA hcur hn hax hay hane
  unfold relax
  simp only []
  by_cases himp : (match jsOrInfG (mget n s.gScore) with
      | none => true
      | some go => g2ltb (stepCost (sqDist cur n) gcur) go) = true
  · rw [if_pos himp]
    exact haux
  · rw [if_neg himp]
    exact ⟨hA, hcur⟩

theorem foldl_relax_inv (walk : ℤ → ℤ → Bool) (start goal cur : Pt)
    (gcur : ℕ × ℕ) :
    ∀ (ns : List Pt), (∀ n ∈ ns, n ∈ getNeighbors cur.x cur.y) →
      ∀ s : AState, AInv walk start s →
        (cur = start ∨ ∃ d, mget cur s.cameFrom = some d) →
        AInv walk start
          (ns.foldl (fun st n => if walk n.x n.y then relax goal cur gcur st n
                                 else st) s) := by
  intro ns
  induction ns with
  | nil => intro _ s hA _; exact hA
  | cons n rest ih =>
    intro hmem s hA hcur
    simp only [List.foldl_cons]
    by_cases hw : walk n.x n.y = true
    · rw [if_pos hw]
      obtain ⟨hA2, hcur2⟩ := relax_inv walk start goal cur gcur s n hA hcur hw
        (hmem n (List.mem_cons_self _ _))
      exact ih (fun m hm => hmem m (List.mem_cons_of_mem _ hm)) _ hA2 hcur2
    · rw [if_neg hw]
      exact ih (fun m hm => hmem m (List.mem_cons_of_mem _ hm)) s hA hcur

theorem expand_inv (walk : ℤ → ℤ → Bool) (start goal cur : Pt) (s : AState)
    (hA : AInv walk start s)
    (hcur : cur = start ∨ ∃ d, mget cur s.cameFrom = some d) :
    AInv walk start (expand walk goal cur s) := by
  unfold expand
  exact foldl_relax_inv walk start goal cur _ (getNeighbors cur.x cur.y)
    (fun n hn => hn) s hA hcur

theorem reconstruct_spec (came : List (Pt × Pt)) (start : Pt)
    (hI3 : ∀ pr ∈ came, pr.2 = start ∨ ∃ d, mget pr.2 came = some d) :
    ∀ (fuel : ℕ) (cur : Pt) (acc l : List Pt),
      (cur = start ∨ ∃ d, mget cur came = some d) →
      reconstruct came fuel cur acc = some l →
      ∃ pre : List Pt, l = pre ++ cur :: acc ∧
        (pre ++ [cur]).head? = some start ∧
        List.Chain' (fun a b => mget b came = some a) (pre ++ [cur]) := by
  intro fuel
  induction fuel with
  | zero => intro cur acc l _ h; cases h
  | succ f ih =>
    intro cur acc l hcur h
    simp only [reconstruct] at h
    cases hg : mget cur came with
    | none =>
      rw [hg] at h
      cases h
      rcases hcur with rfl | ⟨d, hd⟩
      · exact ⟨[], rfl, rfl, List.chain'_singleton _⟩
      · rw [hg] at hd
        cases hd
    | some par =>
      rw [hg] at h
      obtain ⟨pre, hl, hhead, hchain⟩ :=
        ih par (cur :: acc) l (hI3 _ (mget_mem cur par came hg)) h
      refine ⟨pre ++ [par], ?_, ?_, ?_⟩
      · rw [hl, List.append_assoc]
        rfl
      · exact head?_append_left _ _ _ hhead
      · rw [List.chain'_append]
        refine ⟨hchain, List.chain'_singleton _, ?_⟩
        intro x hx y hy
        rw [List.getLast?_concat] at hx
        cases hx
        cases hy
        exact hg

theorem astarLoop_spec (walk : ℤ → ℤ → Bool) (start goal : Pt)
    (maxDist rfuel : ℕ) :
    ∀ (fuel : ℕ) (s : AState), AInv walk start s →
      ∀ p, astarLoop walk goal maxDist rfuel fuel s = .path p →
        p.head? = some start ∧ p.getLast? = some goal ∧
        List.Chain' (fun a b => (b.x - a.x).natAbs ≤ 1 ∧
          (b.y - a.y).natAbs ≤ 1 ∧ b ≠ a) p ∧
        ∀ q ∈ p.tail, walk q.x q.y = true := by
  intro fuel
  induction fuel with
  | zero => intro s _ p h; cases h
  | succ n ih =>
    intro s hA p h
    simp only [astarLoop] at h
    split at h
    · cases h
    · unfold astarStep at h
      cases hscan : scanMin s.fScore s.openSet none none with
      | none =>
        simp only [hscan] at h
        cases h
      | some cur =>
        simp only [hscan] at h
        have hcurm : cur ∈ s.openSet := by
          rcases scanMin_mem s.fScore s.openSet none none cur hscan with hm | he
          · exact hm
          · cases he
        by_cases hgoal : cur = goal
        · rw [if_pos hgoal] at h
          simp only [] at h
          cases hrec : reconstruct s.cameFrom rfuel cur [] with
          | none =>
            rw [hrec] at h
            cases h
          | some l =>
            rw [hrec] at h
            cases h
            obtain ⟨hI1, hI3, hI2⟩ := hA
            obtain ⟨pre, hl, hhead, hchain⟩ :=
              reconstruct_spec s.cameFrom start hI3 rfuel cur [] p
                (hI2 cur hcurm) hrec
            subst hl
            refine ⟨hhead, ?_, ?_, ?_⟩
            · rw [List.getLast?_concat, hgoal]
            · refine List.Chain'.imp ?_ hchain
              intro a b hab
              have hmem := mget_mem b a s.cameFrom hab
              obtain ⟨_, h1, h2, h3⟩ := hI1 _ hmem
              exact ⟨h1, h2, h3⟩
            · intro q hq
              obtain ⟨a, ha⟩ := chain'_tail_rel _ _ hchain q hq
              exact (hI1 _ (mget_mem q a s.cameFrom ha)).1
        · rw [if_neg hgoal] at h
          split at h
          · cases h
          · rename_i came cur2 heq
            split at heq <;> cases heq
          · rename_i s2 heq
            split at heq
            · cases heq
            · cases heq
              have hA2 : AInv walk start
                  (expand walk goal cur { s with openSet := osErase s.openSet cur }) := by
                obtain ⟨hI1, hI3, hI2⟩ := hA
                refine expand_inv walk start goal cur _ ⟨hI1, hI3, ?_⟩ (hI2 cur hcurm)
                intro q hq
                exact hI2 q (osErase_sub cur s.openSet q hq)
              exact ih _ hA2 p h

/-- C10.  Every path returned by `findPath` begins at the start cell, ends
at the goal cell, advances only between 8-neighbor cells (each coordinate
changes by at most 1, and some coordinate changes), and every cell except
the first satisfies the walkability predicate — the start cell itself is
never required to be walkable. -/
theorem C10_path_wellformed (walk : ℤ → ℤ → Bool) (start goal : Pt)
    (maxDist fuel rfuel : ℕ) (p : List Pt)
    (h : findPath walk start goal maxDist fuel rfuel = .path p) :
    p.head? = some start ∧ p.getLast? = some goal ∧
    List.Chain' (fun a b => (b.x - a.x).natAbs ≤ 1 ∧
      (b.y - a.y).natAbs ≤ 1 ∧ b ≠ a) p ∧
    ∀ q ∈ p.tail, walk q.x q.y = true := by
  have hinit : AInv walk start (initState start goal) := by
    refine ⟨?_, ?_, ?_⟩
    · intro pr hpr
      cases hpr
    · intro pr hpr
      cases hpr
    · intro q hq
      exact Or.inl (List.mem_singleton.mp hq)
  unfold findPath at h
  exact astarLoop_spec walk start goal maxDist rfuel fuel (initState start goal)
    hinit p h

/-- A 5×5 board whose start cell `(0,0)` is unwalkable (as when an agent
paths out of its own occupied cell). -/
def walk5 : ℤ → ℤ → Bool := fun x y =>
  decide (0 ≤ x) && decide (x < 5) && decide (0 ≤ y) && decide (y < 5) &&
  !(decide (x = 0) && decide (y = 0))

/-- C10 (witness): a concrete run on `walk5` returns `[(0,0),(1,0),(2,0)]`,
and the theorem applies to it — note the unwalkable start cell. -/
theorem C10_witness :
    findPath walk5 ⟨0, 0⟩ ⟨2, 0⟩ 50 100 100 =
      .path [⟨0, 0⟩, ⟨1, 0⟩, ⟨2, 0⟩] ∧
    (([⟨0, 0⟩, ⟨1, 0⟩, ⟨2, 0⟩] : List Pt).head? = some ⟨0, 0⟩ ∧
     ([⟨0, 0⟩, ⟨1, 0⟩, ⟨2, 0⟩] : List Pt).getLast? = some ⟨2, 0⟩ ∧
     List.Chain' (fun a b : Pt => (b.x - a.x).natAbs ≤ 1 ∧
       (b.y - a.y).natAbs ≤ 1 ∧ b ≠ a) [⟨0, 0⟩, ⟨1, 0⟩, ⟨2, 0⟩] ∧
     ∀ q ∈ ([⟨0, 0⟩, ⟨1, 0⟩, ⟨2, 0⟩] : List Pt).tail, walk5 q.x q.y = true) :=
  ⟨by decide,
   C10_path_wellformed walk5 ⟨0, 0⟩ ⟨2, 0⟩ 50 100 100 _ (by decide)⟩

end Etherius
